import Mathlib

/-!
Verification of the graphsat satisfiability / CNF–hypergraph correspondence
subsystem (`sat.py`) and the simple-graph constructors (`graph.py`).

The Boolean-formula algebra (`cnf` module) and the hypergraph algebra
(`mhgraph` module) are external collaborators of the repository: they are
modelled here from the specification's interface description, and each such
definition carries a doc comment starting with `Modelled from the spec:`.
All other definitions are direct translations of the source files.
-/

/-- Modelled from the spec: a `Literal` is a signed `Variable` (a positive
integer with a polarity) plus the two sentinels `TRUE` and `FALSE`
(`cnf` module, not in `src/`). -/
inductive Lit where
  | pos : Nat → Lit
  | neg : Nat → Lit
  | TRUE : Lit
  | FALSE : Lit
deriving DecidableEq

/-- A `Clause` is a set of literals (disjunction), unordered and duplicate-free. -/
abbrev Clause : Type := Finset Lit

/-- A `CNF` is a set of clauses (conjunction), unordered and duplicate-free. -/
abbrev Cnf : Type := Finset Clause

/-- Modelled from the spec: `cnf.TRUE_CNF`, the canonical tautology `{{TRUE}}`. -/
def TRUE_CNF : Cnf := {({Lit.TRUE} : Clause)}

/-- Modelled from the spec: `cnf.FALSE_CNF`, the canonical contradiction `{{FALSE}}`. -/
def FALSE_CNF : Cnf := {({Lit.FALSE} : Clause)}

/-- Modelled from the spec: `cnf.literal`, building a `Literal` from a signed
integer (`cnf` module, not in `src/`). -/
def literal (i : Int) : Lit :=
  if 0 ≤ i then Lit.pos i.toNat else Lit.neg (-i).toNat

/-- Modelled from the spec: `cnf.neg`, negation of a literal; an involution
with `neg TRUE = FALSE` (`cnf` module, not in `src/`). -/
def neg : Lit → Lit
  | Lit.pos v => Lit.neg v
  | Lit.neg v => Lit.pos v
  | Lit.TRUE => Lit.FALSE
  | Lit.FALSE => Lit.TRUE

/-- Modelled from the spec: `cnf.absolute_value`, the `Variable` (absolute
value) of a literal; sentinels are mapped to the junk value `0`, which never
arises on the sentinel-free clauses the repository applies it to. -/
def absolute_value : Lit → Nat
  | Lit.pos v => v
  | Lit.neg v => v
  | Lit.TRUE => 0
  | Lit.FALSE => 0

/-- Modelled from the spec: `cnf.clause`, the clause constructor collecting an
iterable of signed-integer literals into a set. -/
def clause (ls : List Int) : Clause := (ls.map literal).toFinset

/-- Modelled from the spec: `cnf.cnf`, the CNF constructor collecting an
iterable of integer clauses into a set of clauses. -/
def cnf (ls : List (List Int)) : Cnf := (ls.map clause).toFinset

/-- Modelled from the spec: `cnf.tautologically_reduce_clause`. Simplification
removing `TRUE`/`FALSE` literals and tautological structure: a clause
containing `TRUE`, or a literal together with its negation, reduces to
`{TRUE}`; otherwise `FALSE` literals are dropped, and a clause left empty by
that (an all-`FALSE` clause) reduces to `{FALSE}`. -/
def tautologically_reduce_clause (cl : Clause) : Clause :=
  if Lit.TRUE ∈ cl ∨ ∃ l ∈ cl, neg l ∈ cl then {Lit.TRUE}
  else if cl.filter (fun l => l ≠ Lit.FALSE) = ∅ then {Lit.FALSE}
  else cl.filter (fun l => l ≠ Lit.FALSE)

/-- Modelled from the spec: `cnf.tautologically_reduce_cnf`. Each clause is
reduced; if any clause reduced to `{FALSE}` the CNF is the canonical
contradiction `FALSE_CNF`; otherwise `{TRUE}` clauses are discarded, and a CNF
left empty by that is the canonical tautology `TRUE_CNF`. -/
def tautologically_reduce_cnf (cnf_instance : Cnf) : Cnf :=
  if ({Lit.FALSE} : Clause) ∈ cnf_instance.image tautologically_reduce_clause then FALSE_CNF
  else if (cnf_instance.image tautologically_reduce_clause).erase ({Lit.TRUE} : Clause) = ∅ then
    TRUE_CNF
  else (cnf_instance.image tautologically_reduce_clause).erase ({Lit.TRUE} : Clause)

/-- Modelled from the spec: `cnf.literals_in_cnf`, the set of all literals
appearing in a CNF. -/
def literals_in_cnf (cnf_instance : Cnf) : Finset Lit :=
  cnf_instance.biUnion id

/-- Truth value of a literal under a total valuation of the variables. -/
def evalLit (a : Nat → Bool) : Lit → Bool
  | Lit.pos v => a v
  | Lit.neg v => ! a v
  | Lit.TRUE => true
  | Lit.FALSE => false

/-- Truth value of a clause (disjunction) under a valuation. -/
def evalClause (a : Nat → Bool) (cl : Clause) : Bool :=
  decide (∃ l ∈ cl, evalLit a l = true)

/-- Truth value of a CNF (conjunction of clauses) under a valuation. -/
def evalCnf (a : Nat → Bool) (C : Cnf) : Bool :=
  decide (∀ cl ∈ C, evalClause a cl = true)

/-- Semantic satisfiability of a CNF: some valuation makes it evaluate true. -/
def Satisfiable (C : Cnf) : Prop := ∃ a : Nat → Bool, evalCnf a C = true

/-- Modelled from the spec: `cnf.variable` is the identity on variables, so the
free-variable set of a CNF is the image of `absolute_value` over its
non-sentinel literals. -/
def cnfVars (C : Cnf) : Finset Nat :=
  ((literals_in_cnf C) \ {Lit.TRUE, Lit.FALSE}).image absolute_value

/-- A CNF contains a `TRUE`/`FALSE` sentinel literal somewhere. -/
def hasSentinel (C : Cnf) : Bool :=
  decide (∃ cl ∈ C, Lit.TRUE ∈ cl ∨ Lit.FALSE ∈ cl)

/-- A non-sentinel literal carries a positive variable. -/
def litPositive : Lit → Bool
  | Lit.pos v => decide (0 < v)
  | Lit.neg v => decide (0 < v)
  | Lit.TRUE => true
  | Lit.FALSE => true

/-- A CNF is representable in the repository's concrete encoding: every
non-sentinel literal carries a positive variable (Python literals are nonzero
integers). -/
def Representable (C : Cnf) : Prop :=
  ∀ cl ∈ C, ∀ l ∈ cl, litPositive l = true

instance (C : Cnf) : Decidable (Representable C) := by
  unfold Representable; infer_instance

/-- A valid CNF per the data model: a nonempty set of nonempty clauses. -/
def ValidCnf (C : Cnf) : Prop :=
  C.Nonempty ∧ ∀ cl ∈ C, cl.Nonempty

instance (C : Cnf) : Decidable (ValidCnf C) := by
  unfold ValidCnf; infer_instance

/-- A canonical enumeration of a finite set of naturals (the source iterates
Python sets in an arbitrary interpreter-chosen order; the embedding fixes
one). -/
def natList (s : Finset Nat) : List Nat :=
  (List.range (s.fold max 0 id + 1)).filter (fun v => v ∈ s)

theorem le_fold_max {s : Finset Nat} {v : Nat} (hv : v ∈ s) : v ≤ s.fold max 0 id := by
  induction s using Finset.induction_on with
  | empty => simp at hv
  | insert hx ih =>
    rw [Finset.fold_insert hx]
    rcases Finset.mem_insert.mp hv with rfl | h
    · exact le_max_left _ _
    · exact le_trans (ih h) (le_max_right _ _)

theorem mem_natList {s : Finset Nat} {v : Nat} : v ∈ natList s ↔ v ∈ s := by
  simp only [natList, List.mem_filter, List.mem_range, decide_eq_true_eq]
  constructor
  · exact fun h => h.2
  · intro h
    exact ⟨Nat.lt_succ_of_le (le_fold_max h), h⟩

theorem natList_nodup (s : Finset Nat) : (natList s).Nodup := by
  unfold natList
  exact (List.nodup_range _).filter _

theorem natList_toFinset (s : Finset Nat) : (natList s).toFinset = s := by
  ext v
  rw [List.mem_toFinset, mem_natList]

theorem natList_length (s : Finset Nat) : (natList s).length = s.card :=
  ((List.toFinset_card_of_nodup (natList_nodup s)).symm).trans
    (by rw [natList_toFinset])

instance {E A : Type} [DecidableEq E] [DecidableEq A] : DecidableEq (Except E A) := fun x y =>
  match x, y with
  | Except.ok a, Except.ok b =>
    if h : a = b then isTrue (by rw [h])
    else isFalse (fun hc => h (by cases hc; rfl))
  | Except.error e, Except.error f =>
    if h : e = f then isTrue (by rw [h])
    else isFalse (fun hc => h (by cases hc; rfl))
  | Except.ok _, Except.error _ => isFalse (fun hc => by cases hc)
  | Except.error _, Except.ok _ => isFalse (fun hc => by cases hc)

/-- All tuples of booleans of a given length, in the order of
`itertools.product([TRUE, FALSE], repeat=n)` (first coordinate varies
slowest).  Tuples model the assignment values of `generate_assignments`. -/
def boolTuples : Nat → List (List Bool)
  | 0 => [[]]
  | n + 1 => ((boolTuples n).map (true :: ·)) ++ ((boolTuples n).map (false :: ·))

/-- Translation of `sat.generate_assignments` (src/sat.py:47-75): reduce the
CNF, collect its free variables, and list the `2 ^ n` truth-assignment
dictionaries (association lists from `Variable` to `Bool`, where Lean's `true`
stands for the sentinel `cnf.TRUE` and `false` for `cnf.FALSE`). -/
def generate_assignments (cnf_instance : Cnf) : List (List (Nat × Bool)) :=
  let cnf_reduced := tautologically_reduce_cnf cnf_instance
  let variable_set := cnfVars cnf_reduced
  let vs := natList variable_set
  (boolTuples vs.length).map (fun bs => vs.zip bs)

/-- The substitution underlying `cnf.assign`: replace each assigned variable by
the corresponding `TRUE`/`FALSE` sentinel; unassigned literals are kept. -/
def substLit (assignment : List (Nat × Bool)) : Lit → Lit
  | Lit.pos v =>
    match assignment.lookup v with
    | some b => if b then Lit.TRUE else Lit.FALSE
    | none => Lit.pos v
  | Lit.neg v =>
    match assignment.lookup v with
    | some b => if b then Lit.FALSE else Lit.TRUE
    | none => Lit.neg v
  | Lit.TRUE => Lit.TRUE
  | Lit.FALSE => Lit.FALSE

/-- Modelled from the spec: `cnf.assign` substitutes a truth assignment into a
CNF and tautologically reduces the result (`cnf` module, not in `src/`). -/
def assign (cnf_instance : Cnf) (assignment : List (Nat × Bool)) : Cnf :=
  tautologically_reduce_cnf
    (cnf_instance.image (fun cl => cl.image (substLit assignment)))

/-- Translation of `sat.cnf_bruteforce_satcheck` (src/sat.py:78-106): reduce,
short-circuit on the trivial CNFs, else search the generated assignments for
one that reduces the CNF to `TRUE_CNF`. -/
def cnf_bruteforce_satcheck (cnf_instance : Cnf) : Bool :=
  let cnf_reduced := tautologically_reduce_cnf cnf_instance
  if cnf_reduced = TRUE_CNF then true
  else if cnf_reduced = FALSE_CNF then false
  else
    (generate_assignments cnf_reduced).any
      (fun a => decide (assign cnf_reduced a = TRUE_CNF))

/-- Exhaustive satisfiability decision over a CNF's own free variables; this is
the reference decision procedure used to model the external solvers. -/
def satDecision (C : Cnf) : Bool :=
  let vs := natList (cnfVars C)
  (boolTuples vs.length).any
    (fun bs => evalCnf (fun v => ((vs.zip bs).lookup v).getD false) C)

/-- Modelled from the spec: the external SAT library's `Minisat22` solver.  It
rejects (raises a domain error on) malformed input — a CNF still containing
`TRUE`/`FALSE` sentinel structure — and otherwise correctly decides
satisfiability. -/
def Minisat22_solve (C : Cnf) : Except String Bool :=
  if hasSentinel C then Except.error "malformed clause input"
  else Except.ok (satDecision C)

/-- Translation of `sat.cnf_pysat_satcheck` (src/sat.py:109-132): try the
library on the raw CNF; on a domain error, reduce, short-circuit on the
trivial CNFs, and retry the library on the reduced CNF. -/
def cnf_pysat_satcheck (cnf_instance : Cnf) : Except String Bool :=
  match Minisat22_solve cnf_instance with
  | Except.ok b => Except.ok b
  | Except.error _ =>
    let cnf_reduced := tautologically_reduce_cnf cnf_instance
    if cnf_reduced = TRUE_CNF then Except.ok true
    else if cnf_reduced = FALSE_CNF then Except.ok false
    else Minisat22_solve cnf_reduced

/-- The DIMACS integer of a literal (`str` of the literal in the source);
sentinels are mapped to the junk value `0`, which never reaches the DIMACS
serializer because it only renders tautologically reduced nontrivial CNFs. -/
def litToInt : Lit → Int
  | Lit.pos v => (v : Int)
  | Lit.neg v => -(v : Int)
  | Lit.TRUE => 0
  | Lit.FALSE => 0

/-- The integers of one DIMACS clause line, sorted (the source iterates the
clause frozenset in an arbitrary order; this embedding fixes one). -/
def clause_ints (cl : Clause) : List Int :=
  (cl.image litToInt).sort (· ≤ ·)

/-- The clause lines of a (reduced, nontrivial) CNF as integer lists, sorted
lexicographically (again fixing the source's arbitrary set order). -/
def dimacs_lines (r : Cnf) : List (List Int) :=
  (r.image clause_ints).sort (· ≤ ·)

/-- Translation of `sat.cnf_to_dimacs` (src/sat.py:135-163): reduce; `""` for
`TRUE_CNF`, `"0"` for `FALSE_CNF`, else one line per clause, space-separated
literal integers with a trailing `0`, lines joined by newline. -/
def cnf_to_dimacs (cnf_instance : Cnf) : String :=
  let cnf_reduced := tautologically_reduce_cnf cnf_instance
  if cnf_reduced = TRUE_CNF then ""
  else if cnf_reduced = FALSE_CNF then "0"
  else
    String.intercalate "\n"
      ((dimacs_lines cnf_reduced).map
        (fun li => String.intercalate " " (li.map toString) ++ " 0"))

/-- The formula encoded by a DIMACS serialization, as integer clauses: no
lines for `TRUE_CNF`, the single empty clause for `FALSE_CNF`, else the
clause lines. -/
def dimacsList (cnf_instance : Cnf) : List (List Int) :=
  let cnf_reduced := tautologically_reduce_cnf cnf_instance
  if cnf_reduced = TRUE_CNF then []
  else if cnf_reduced = FALSE_CNF then [[]]
  else dimacs_lines cnf_reduced

/-- Truth value of a DIMACS integer literal under a valuation. -/
def intEvalLit (a : Nat → Bool) (i : Int) : Bool :=
  if 0 < i then a i.natAbs else ! a i.natAbs

/-- Variables mentioned by an integer formula. -/
def intVars (f : List (List Int)) : Finset Nat :=
  (f.map (fun cl => cl.map Int.natAbs)).flatten.toFinset

/-- Exhaustive satisfiability decision for an integer formula. -/
def intSatDecision (f : List (List Int)) : Bool :=
  let vs := natList (intVars f)
  (boolTuples vs.length).any
    (fun bs =>
      f.all (fun cl =>
        cl.any (fun i => intEvalLit (fun v => ((vs.zip bs).lookup v).getD false) i)))

/-- Semantic satisfiability of an integer (DIMACS-level) formula. -/
def IntSatisfiable (f : List (List Int)) : Prop :=
  ∃ a : Nat → Bool, ∀ cl ∈ f, ∃ i ∈ cl, intEvalLit a i = true

/-- Modelled from the spec: the external `minisat` executable.  It is fed the
DIMACS text on standard input; its standard output's final whitespace-
delimited token is `SATISFIABLE` exactly when the formula encoded by that
DIMACS input is satisfiable, else `UNSATISFIABLE`.  The model interfaces at
the level of the encoded integer formula (`dimacsList`). -/
def minisat_exec_output (formula : List (List Int)) : String :=
  if intSatDecision formula then "SATISFIABLE" else "UNSATISFIABLE"

/-- Splitting a character list at whitespace, keeping empty pieces
(the structural core of Python's `str.split`). -/
def splitWs : List Char → List (List Char)
  | [] => [[]]
  | c :: cs =>
    if c.isWhitespace then [] :: splitWs cs
    else
      match splitWs cs with
      | [] => [[c]]
      | t :: ts => (c :: t) :: ts

/-- The final whitespace-delimited token of a string
(`output.split()[-1]` in the source). -/
def lastToken (s : String) : Option String :=
  ((((splitWs s.toList).filter (fun t => t ≠ [])).getLast?).map String.mk)

/-- The verdict-parsing tail of `sat.cnf_minisat_satcheck`
(src/sat.py:187-192): `True` on `SATISFIABLE`, `False` on `UNSATISFIABLE`,
else a fatal error carrying the raw output. -/
def minisat_verdict (output : String) : Except (String × String) Bool :=
  match lastToken output with
  | none => Except.error ("IndexError: list index out of range", "")
  | some t =>
    if t = "SATISFIABLE" then Except.ok true
    else if t = "UNSATISFIABLE" then Except.ok false
    else Except.error ("Unexpected output from minisat.", output)

/-- Translation of `sat.cnf_minisat_satcheck` (src/sat.py:166-192) with its
subprocess output parametrized: the function serializes the CNF to DIMACS and
parses the solver's output string.  Used to state properties that range over
arbitrary solver outputs. -/
def cnf_minisat_satcheck_io (cnf_instance : Cnf) (solver_output : String) :
    Except (String × String) Bool :=
  let _cnf_dimacs := cnf_to_dimacs cnf_instance
  minisat_verdict solver_output

/-- Translation of `sat.cnf_minisat_satcheck` (src/sat.py:166-192) composed
with the spec-modelled external executable. -/
def cnf_minisat_satcheck (cnf_instance : Cnf) : Except (String × String) Bool :=
  cnf_minisat_satcheck_io cnf_instance (minisat_exec_output (dimacsList cnf_instance))

/-- Translation of `sat.literals_from_vertex` (src/sat.py:199-210): a vertex's
positive literal together with its negation. -/
def literals_from_vertex (v : Nat) : Lit × Lit :=
  (Lit.pos v, neg (Lit.pos v))

/-- The Cartesian product `itertools.product(*pairs)` over a list of literal
pairs, the last coordinate varying fastest. -/
def signProd : List (Lit × Lit) → List (List Lit)
  | [] => [[]]
  | p :: rest => ((signProd rest).map (p.1 :: ·)) ++ ((signProd rest).map (p.2 :: ·))

/-- Translation of `sat.clauses_from_hedge` (src/sat.py:213-229): all
`2 ^ |hedge|` clauses supported on a hyperedge, one sign choice per vertex. -/
def clauses_from_hedge (hedge : Finset Nat) : List Clause :=
  (signProd ((natList hedge).map literals_from_vertex)).map List.toFinset

/-- Translation of `sat.cnfs_from_hedge` (src/sat.py:232-257): a domain error
unless `1 ≤ multiplicity ≤ 2 ^ |hedge|`, else every `multiplicity`-sized
combination of the supported clauses, each forming one CNF. -/
def cnfs_from_hedge (hedge : Finset Nat) (multiplicity : Int) :
    Except String (List Cnf) :=
  if 1 ≤ multiplicity ∧ multiplicity ≤ 2 ^ hedge.card then
    Except.ok
      (((clauses_from_hedge hedge).sublistsLen multiplicity.toNat).map List.toFinset)
  else Except.error "Multiplicity value not within permissible range."

/-- The Cartesian product `itertools.product(*lists)`, the last coordinate
varying fastest. -/
def tupleProd : List (List Cnf) → List (List Cnf)
  | [] => [[]]
  | xs :: rest => xs.flatMap (fun x => (tupleProd rest).map (x :: ·))

/-- `frozenset.union` folded over one tuple of the product. -/
def unionAll (t : List Cnf) : Cnf := t.foldr (· ∪ ·) ∅

/-- The successful value of `cnfs_from_hedge` for one `(HEdge, multiplicity)`
item: the CNFs supported on that hyperedge with that multiplicity. -/
def hedgeCnfList (p : Finset Nat × Int) : List Cnf :=
  ((clauses_from_hedge p.1).sublistsLen p.2.toNat).map List.toFinset

/-- Translation of `sat.cnfs_from_mhgraph` (src/sat.py:260-281), over the
MHGraph's `(HEdge, multiplicity)` item list: per hyperedge the CNFs of
`cnfs_from_hedge`, the Cartesian product across hyperedges, each tuple's
clause sets unioned into one CNF. -/
def cnfs_from_mhgraph (items : List (Finset Nat × Int)) : Except String (List Cnf) := do
  let lists ← items.mapM (fun p => cnfs_from_hedge p.1 p.2)
  Except.ok ((tupleProd lists).map unionAll)

/-- The variable-support of a clause: the set of absolute values of its
literals (src/sat.py:356-358). -/
def support (cl : Clause) : Finset Nat := cl.image absolute_value

/-- The number of clauses of a CNF supported on a given vertex set. -/
def supportCount (D : Cnf) (e : Finset Nat) : Nat :=
  (D.filter (fun cl => support cl = e)).card

/-- Modelled from the spec: the `mhgraph.mhgraph` constructor (`mhgraph`
module, not in `src/`).  It validates that the input collection of vertex
collections is nonempty and that every vertex collection is a nonempty
collection of positive integers, and deduplicates identical vertex-sets into
one HEdge whose multiplicity is the number of collection members that mapped
to it; the resulting multiset of hyperedges is exactly that
HEdge-to-multiplicity counter.  `validHedgeInput` is the per-collection
validation: nonempty, and every vertex a positive integer. -/
def validHedgeInput (l : List Int) : Bool :=
  decide (l ≠ []) && l.all (fun i => decide (0 < i))

/-- Modelled from the spec: the `mhgraph.mhgraph` constructor, validation
predicate part two: every vertex collection passes `validHedgeInput`. -/
def mhgraph (ls : Multiset (List Int)) : Except String (Multiset (Finset Nat)) :=
  if ls = 0 then Except.error "Encountered empty input"
  else if ls.countP (fun l => validHedgeInput l = false) = 0 then
    Except.ok (ls.map (fun l => (l.map Int.toNat).toFinset))
  else Except.error "Vertices should be positive integers."

/-- Translation of `sat.mhgraph_from_cnf` (src/sat.py:332-360): reduce; a
domain error on the trivial CNFs; else pass the clauses' variable-supports
(one per distinct reduced clause) to the MHGraph constructor. -/
def mhgraph_from_cnf (cnf_instance : Cnf) : Except String (Multiset (Finset Nat)) :=
  let reduced_cnf := tautologically_reduce_cnf cnf_instance
  if reduced_cnf = TRUE_CNF ∨ reduced_cnf = FALSE_CNF then
    Except.error "CNF reduced to trivial True/False and has no supporting MHGraph."
  else
    mhgraph
      (reduced_cnf.val.map
        (fun cl => (natList (support cl)).map Int.ofNat))

/-- Translation of `graph.vertex` (src/graph.py:66-84): a positive integer,
else a domain error. -/
def vertex (positive_int : Int) : Except String Nat :=
  if positive_int ≤ 0 then Except.error "Vertices should be positive integers."
  else Except.ok positive_int.toNat

/-- Translation of `graph.edge` (src/graph.py:87-111): a domain error on an
empty collection or on more than two elements, else the set of validated
vertices. -/
def edge (vertex_collection : List Int) : Except String (Finset Nat) :=
  if vertex_collection = [] then Except.error "Encountered empty input"
  else if 2 < vertex_collection.length then
    Except.error "Encountered a hyperedge. Use MHGraphs instead."
  else do
    let vs ← vertex_collection.mapM vertex
    Except.ok vs.toFinset

/-- Translation of `graph.graph` (src/graph.py:114-153): a domain error on an
empty iterable; each element is validated as an edge and the edges collected
into a set; a domain error if some vertex lies both in a single-vertex edge
and in a vertex-pair edge. -/
def graph (edge_iterable : List (List Int)) : Except String (Finset (Finset Nat)) :=
  if edge_iterable = [] then Except.error "Encountered empty input"
  else do
    let es ← edge_iterable.mapM edge
    let edges := es.toFinset
    let single_vertex_edges := edges.filter (fun e => e.card = 1)
    let double_vertex_edges := edges.filter (fun e => ¬ e.card = 1)
    let vertices_in_single := single_vertex_edges.biUnion id
    let vertices_in_double := double_vertex_edges.biUnion id
    if vertices_in_double ∩ vertices_in_single ≠ ∅ then
      Except.error "A Vertex is in both a single-vertex-edge and a vertex-pair-edge."
    else Except.ok edges

/-- Translation of `graph.vertices` (src/graph.py:160-170): the union of all
edges of a graph. -/
def vertices (graph_instance : Finset (Finset Nat)) : Finset Nat :=
  graph_instance.biUnion id

theorem evalClause_TRUE (a : Nat → Bool) : evalClause a {Lit.TRUE} = true := by
  simp [evalClause, evalLit]

theorem evalClause_FALSE (a : Nat → Bool) : evalClause a {Lit.FALSE} = false := by
  simp [evalClause, evalLit]

theorem evalCnf_TRUE_CNF (a : Nat → Bool) : evalCnf a TRUE_CNF = true := by
  simp [evalCnf, TRUE_CNF, evalClause_TRUE]

theorem evalCnf_FALSE_CNF (a : Nat → Bool) : evalCnf a FALSE_CNF = false := by
  simp [evalCnf, FALSE_CNF, evalClause_FALSE]

theorem evalClause_reduce (a : Nat → Bool) (cl : Clause) :
    evalClause a (tautologically_reduce_clause cl) = evalClause a cl := by
  unfold tautologically_reduce_clause
  split
  · next h =>
    rw [evalClause_TRUE]
    symm
    simp only [evalClause, decide_eq_true_eq]
    rcases h with h | ⟨l, hl, hnl⟩
    · exact ⟨Lit.TRUE, h, rfl⟩
    · cases l with
      | pos v =>
        cases hav : a v with
        | true => exact ⟨Lit.pos v, hl, hav⟩
        | false => exact ⟨Lit.neg v, hnl, by simp [evalLit, hav]⟩
      | neg v =>
        cases hav : a v with
        | true => exact ⟨Lit.pos v, hnl, hav⟩
        | false => exact ⟨Lit.neg v, hl, by simp [evalLit, hav]⟩
      | TRUE => exact ⟨Lit.TRUE, hl, rfl⟩
      | FALSE => exact ⟨Lit.TRUE, hnl, rfl⟩
  · next h =>
    split
    · next hempty =>
      rw [evalClause_FALSE]
      have hall : ∀ l ∈ cl, l = Lit.FALSE := by
        intro l hl
        by_contra hne
        have hmem : l ∈ cl.filter (fun l => l ≠ Lit.FALSE) :=
          Finset.mem_filter.mpr ⟨hl, hne⟩
        simp [hempty] at hmem
      symm
      simp only [evalClause, decide_eq_false_iff_not, not_exists]
      intro l
      rintro ⟨hl, hev⟩
      rw [hall l hl] at hev
      simp [evalLit] at hev
    · next hne =>
      simp only [evalClause, decide_eq_decide]
      constructor
      · rintro ⟨l, hl, hev⟩
        exact ⟨l, (Finset.mem_filter.mp hl).1, hev⟩
      · rintro ⟨l, hl, hev⟩
        refine ⟨l, Finset.mem_filter.mpr ⟨hl, ?_⟩, hev⟩
        rintro rfl
        simp [evalLit] at hev

theorem evalCnf_image_reduce (a : Nat → Bool) (C : Cnf) :
    evalCnf a (C.image tautologically_reduce_clause) = evalCnf a C := by
  simp only [evalCnf, decide_eq_decide, Finset.forall_image]
  constructor
  · intro h cl hcl
    rw [← evalClause_reduce]
    exact h cl hcl
  · intro h cl hcl
    rw [evalClause_reduce]
    exact h cl hcl

theorem evalCnf_reduce (a : Nat → Bool) (C : Cnf) :
    evalCnf a (tautologically_reduce_cnf C) = evalCnf a C := by
  rw [← evalCnf_image_reduce a C]
  unfold tautologically_reduce_cnf
  split
  · next h =>
    rw [evalCnf_FALSE_CNF]
    symm
    simp only [evalCnf, decide_eq_false_iff_not, not_forall]
    exact ⟨{Lit.FALSE}, ⟨h, by simp [evalClause_FALSE]⟩⟩
  · split
    · next hempty =>
      rw [evalCnf_TRUE_CNF]
      symm
      simp only [evalCnf, decide_eq_true_eq]
      intro cl hcl
      have hT : cl = ({Lit.TRUE} : Clause) := by
        by_contra hne
        have hmem : cl ∈ (C.image tautologically_reduce_clause).erase ({Lit.TRUE} : Clause) :=
          Finset.mem_erase.mpr ⟨hne, hcl⟩
        simp [hempty] at hmem
      rw [hT, evalClause_TRUE]
    · simp only [evalCnf, decide_eq_decide]
      constructor
      · intro h1 cl hcl
        by_cases hT : cl = ({Lit.TRUE} : Clause)
        · rw [hT, evalClause_TRUE]
        · exact h1 cl (Finset.mem_erase.mpr ⟨hT, hcl⟩)
      · intro h1 cl hcl
        exact h1 cl (Finset.mem_erase.mp hcl).2

theorem satisfiable_reduce (C : Cnf) :
    Satisfiable (tautologically_reduce_cnf C) ↔ Satisfiable C := by
  unfold Satisfiable
  constructor
  · rintro ⟨a, ha⟩
    exact ⟨a, by rw [← evalCnf_reduce]; exact ha⟩
  · rintro ⟨a, ha⟩
    exact ⟨a, by rw [evalCnf_reduce]; exact ha⟩

theorem sat_of_reduce_TRUE {C : Cnf} (h : tautologically_reduce_cnf C = TRUE_CNF) :
    ∀ a : Nat → Bool, evalCnf a C = true := by
  intro a
  rw [← evalCnf_reduce, h, evalCnf_TRUE_CNF]

theorem unsat_of_reduce_FALSE {C : Cnf} (h : tautologically_reduce_cnf C = FALSE_CNF) :
    ∀ a : Nat → Bool, evalCnf a C = false := by
  intro a
  rw [← evalCnf_reduce, h, evalCnf_FALSE_CNF]

theorem reduce_eq_erase {C : Cnf}
    (h1 : tautologically_reduce_cnf C ≠ TRUE_CNF)
    (h2 : tautologically_reduce_cnf C ≠ FALSE_CNF) :
    tautologically_reduce_cnf C =
      (C.image tautologically_reduce_clause).erase ({Lit.TRUE} : Clause) := by
  by_cases hF : ({Lit.FALSE} : Clause) ∈ C.image tautologically_reduce_clause
  · exfalso
    apply h2
    rw [tautologically_reduce_cnf, if_pos hF]
  by_cases hrest : (C.image tautologically_reduce_clause).erase ({Lit.TRUE} : Clause) = ∅
  · exfalso
    apply h1
    rw [tautologically_reduce_cnf, if_neg hF, if_pos hrest]
  rw [tautologically_reduce_cnf, if_neg hF, if_neg hrest]

theorem reduce_no_FALSE_clause {C : Cnf}
    (h2 : tautologically_reduce_cnf C ≠ FALSE_CNF) :
    ({Lit.FALSE} : Clause) ∉ C.image tautologically_reduce_clause := by
  intro hF
  apply h2
  rw [tautologically_reduce_cnf, if_pos hF]

theorem reduced_nontrivial_struct {C : Cnf}
    (h1 : tautologically_reduce_cnf C ≠ TRUE_CNF)
    (h2 : tautologically_reduce_cnf C ≠ FALSE_CNF) :
    (tautologically_reduce_cnf C).Nonempty ∧
      ∀ cl ∈ tautologically_reduce_cnf C,
        cl.Nonempty ∧ Lit.TRUE ∉ cl ∧ Lit.FALSE ∉ cl ∧ ¬ ∃ l ∈ cl, neg l ∈ cl := by
  have hF := reduce_no_FALSE_clause h2
  have hred := reduce_eq_erase h1 h2
  constructor
  · rw [hred]
    apply Finset.nonempty_iff_ne_empty.mpr
    intro hempty
    apply h1
    rw [tautologically_reduce_cnf, if_neg hF, if_pos hempty]
  · intro cl hcl
    rw [hred] at hcl
    have hcl2 := Finset.mem_erase.mp hcl
    obtain ⟨cl0, _, hredc⟩ := Finset.mem_image.mp hcl2.2
    rw [tautologically_reduce_clause] at hredc
    split at hredc
    · exact absurd hredc.symm hcl2.1
    · next hb1 =>
      split at hredc
      · exfalso
        apply hF
        rw [← hredc] at hcl2
        exact hcl2.2
      · next hfne =>
        subst hredc
        refine ⟨Finset.nonempty_iff_ne_empty.mpr hfne, ?_, ?_, ?_⟩
        · intro hT
          exact hb1 (Or.inl (Finset.mem_filter.mp hT).1)
        · intro hFmem
          exact (Finset.mem_filter.mp hFmem).2 rfl
        · rintro ⟨l, hl, hnl⟩
          exact hb1 (Or.inr ⟨l, (Finset.mem_filter.mp hl).1, (Finset.mem_filter.mp hnl).1⟩)

theorem reduce_TRUE_CNF : tautologically_reduce_cnf TRUE_CNF = TRUE_CNF := by decide

theorem reduce_FALSE_CNF : tautologically_reduce_cnf FALSE_CNF = FALSE_CNF := by decide

theorem reduce_idem (C : Cnf) :
    tautologically_reduce_cnf (tautologically_reduce_cnf C) = tautologically_reduce_cnf C := by
  by_cases h1 : tautologically_reduce_cnf C = TRUE_CNF
  · rw [h1, reduce_TRUE_CNF]
  by_cases h2 : tautologically_reduce_cnf C = FALSE_CNF
  · rw [h2, reduce_FALSE_CNF]
  obtain ⟨hne, hstruct⟩ := reduced_nontrivial_struct h1 h2
  set r := tautologically_reduce_cnf C with hr
  have hfix : ∀ cl ∈ r, tautologically_reduce_clause cl = cl := by
    intro cl hcl
    obtain ⟨hclne, hT, hFm, hcompl⟩ := hstruct cl hcl
    rw [tautologically_reduce_clause]
    have hfilter : cl.filter (fun l => l ≠ Lit.FALSE) = cl := by
      apply Finset.filter_true_of_mem
      intro l hl heq
      exact hFm (heq ▸ hl)
    rw [if_neg (by push_neg at hcompl ⊢; exact ⟨hT, hcompl⟩), hfilter,
      if_neg (Finset.nonempty_iff_ne_empty.mp hclne)]
  have himage : r.image tautologically_reduce_clause = r := by
    rw [Finset.image_congr (g := id) (fun cl hcl => hfix cl hcl), Finset.image_id]
  have hTmem : ({Lit.TRUE} : Clause) ∉ r := by
    intro hmem
    exact (hstruct _ hmem).2.1 (Finset.mem_singleton_self _)
  have hFmem : ({Lit.FALSE} : Clause) ∉ r := by
    intro hmem
    exact (hstruct _ hmem).2.2.1 (Finset.mem_singleton_self _)
  rw [tautologically_reduce_cnf, himage, if_neg hFmem, Finset.erase_eq_of_not_mem hTmem,
    if_neg (Finset.nonempty_iff_ne_empty.mp hne)]

theorem mem_cnfVars {C : Cnf} {v : Nat} :
    v ∈ cnfVars C ↔ ∃ cl ∈ C, Lit.pos v ∈ cl ∨ Lit.neg v ∈ cl := by
  simp only [cnfVars, literals_in_cnf, Finset.mem_image, Finset.mem_sdiff,
    Finset.mem_biUnion, id, Finset.mem_insert, Finset.mem_singleton]
  constructor
  · rintro ⟨l, ⟨⟨cl, hcl, hlcl⟩, hsent⟩, habs⟩
    refine ⟨cl, hcl, ?_⟩
    cases l with
    | pos w => exact Or.inl (habs ▸ hlcl)
    | neg w => exact Or.inr (habs ▸ hlcl)
    | TRUE => exact absurd (Or.inl rfl) hsent
    | FALSE => exact absurd (Or.inr rfl) hsent
  · rintro ⟨cl, hcl, hv | hv⟩
    · exact ⟨Lit.pos v, ⟨⟨cl, hcl, hv⟩, by simp⟩, rfl⟩
    · exact ⟨Lit.neg v, ⟨⟨cl, hcl, hv⟩, by simp⟩, rfl⟩

theorem evalLit_congr {a b : Nat → Bool} {cl : Clause} {C : Cnf}
    (hcl : cl ∈ C) (h : ∀ v ∈ cnfVars C, a v = b v) {l : Lit} (hl : l ∈ cl) :
    evalLit a l = evalLit b l := by
  cases l with
  | pos v => exact h v (mem_cnfVars.mpr ⟨cl, hcl, Or.inl hl⟩)
  | neg v =>
    have := h v (mem_cnfVars.mpr ⟨cl, hcl, Or.inr hl⟩)
    simp [evalLit, this]
  | TRUE => rfl
  | FALSE => rfl

theorem evalCnf_congr {a b : Nat → Bool} {C : Cnf}
    (h : ∀ v ∈ cnfVars C, a v = b v) : evalCnf a C = evalCnf b C := by
  simp only [evalCnf, decide_eq_decide]
  apply forall_congr'
  intro cl
  apply imp_congr_right
  intro hcl
  have : evalClause a cl = evalClause b cl := by
    simp only [evalClause, decide_eq_decide]
    apply exists_congr
    intro l
    apply and_congr_right
    intro hl
    rw [evalLit_congr hcl h hl]
  rw [this]

theorem mem_boolTuples {n : Nat} {bs : List Bool} :
    bs ∈ boolTuples n ↔ bs.length = n := by
  induction n generalizing bs with
  | zero => simp [boolTuples, List.length_eq_zero]
  | succ n ih =>
    simp only [boolTuples, List.mem_append, List.mem_map]
    constructor
    · rintro (⟨t, ht, rfl⟩ | ⟨t, ht, rfl⟩) <;> simp [ih.mp ht]
    · intro hlen
      cases bs with
      | nil => simp at hlen
      | cons b t =>
        have ht : t ∈ boolTuples n := ih.mpr (by simpa using hlen)
        cases b
        · exact Or.inr ⟨t, ht, rfl⟩
        · exact Or.inl ⟨t, ht, rfl⟩

theorem length_boolTuples (n : Nat) : (boolTuples n).length = 2 ^ n := by
  induction n with
  | zero => rfl
  | succ n ih => simp [boolTuples, ih, pow_succ, Nat.mul_two]

theorem lookup_zip_isSome {vs : List Nat} {bs : List Bool}
    (hlen : vs.length = bs.length) {v : Nat} (hv : v ∈ vs) :
    ((vs.zip bs).lookup v).isSome = true := by
  induction vs generalizing bs with
  | nil => simp at hv
  | cons w vs ih =>
    cases bs with
    | nil => simp at hlen
    | cons b bs =>
      by_cases hw : v = w
      · simp [List.zip_cons_cons, List.lookup, hw]
      · have hv2 : v ∈ vs := by
          rcases List.mem_cons.mp hv with h | h
          · exact absurd h hw
          · exact h
        simpa [List.zip_cons_cons, List.lookup, beq_false_of_ne hw] using
          ih (by simpa using hlen) hv2

theorem lookup_zip_map {vs : List Nat} (f : Nat → Bool) {v : Nat} (hv : v ∈ vs) :
    ((vs.zip (vs.map f)).lookup v) = some (f v) := by
  induction vs with
  | nil => simp at hv
  | cons w vs ih =>
    by_cases hw : v = w
    · subst hw
      simp [List.zip_cons_cons, List.lookup]
    · have hv2 : v ∈ vs := by
        rcases List.mem_cons.mp hv with h | h
        · exact absurd h hw
        · exact h
      simpa [List.zip_cons_cons, List.lookup, beq_false_of_ne hw] using ih hv2

theorem lookup_isSome_of_mem_keys {l : List (Nat × Bool)} {v : Nat}
    (hv : v ∈ l.map Prod.fst) : (l.lookup v).isSome = true := by
  induction l with
  | nil => simp at hv
  | cons p l ih =>
    by_cases hw : v = p.1
    · simp [List.lookup, hw]
    · have hv2 : v ∈ l.map Prod.fst := by
        rw [List.map_cons, List.mem_cons] at hv
        exact hv.resolve_left hw
      simpa [List.lookup, beq_false_of_ne hw] using ih hv2

theorem satDecision_iff {C : Cnf} : satDecision C = true ↔ Satisfiable C := by
  unfold satDecision
  rw [List.any_eq_true]
  constructor
  · rintro ⟨bs, _, hev⟩
    exact ⟨_, hev⟩
  · rintro ⟨a, ha⟩
    set vs := natList (cnfVars C) with hvs
    refine ⟨vs.map a, ?_, ?_⟩
    · exact mem_boolTuples.mpr (by simp)
    · rw [evalCnf_congr (b := a)]
      · exact ha
      · intro v hv
        have hvmem : v ∈ vs := by
          rw [hvs, mem_natList]
          exact hv
        rw [lookup_zip_map a hvmem]
        rfl

theorem substLit_total {l : List (Nat × Bool)} {lit : Lit}
    (h : ∀ v : Nat, lit = Lit.pos v ∨ lit = Lit.neg v → (l.lookup v).isSome = true) :
    substLit l lit =
      (if evalLit (fun v => (l.lookup v).getD false) lit = true then Lit.TRUE
       else Lit.FALSE) := by
  cases lit with
  | pos v =>
    obtain ⟨b, hb⟩ := Option.isSome_iff_exists.mp (h v (Or.inl rfl))
    cases b <;> simp [substLit, evalLit, hb]
  | neg v =>
    obtain ⟨b, hb⟩ := Option.isSome_iff_exists.mp (h v (Or.inr rfl))
    cases b <;> simp [substLit, evalLit, hb]
  | TRUE => simp [substLit, evalLit]
  | FALSE => simp [substLit, evalLit]

theorem assign_total (C : Cnf) (l : List (Nat × Bool))
    (htot : ∀ v ∈ cnfVars C, (l.lookup v).isSome = true) :
    assign C l =
      (if evalCnf (fun v => (l.lookup v).getD false) C = true then TRUE_CNF
       else FALSE_CNF) := by
  set a : Nat → Bool := fun v => (l.lookup v).getD false with ha
  have hclred : ∀ cl ∈ C, tautologically_reduce_clause (cl.image (substLit l)) =
      (if evalClause a cl = true then ({Lit.TRUE} : Clause)
       else ({Lit.FALSE} : Clause)) := by
    intro cl hcl
    have hsub : ∀ lit ∈ cl, substLit l lit =
        (if evalLit a lit = true then Lit.TRUE else Lit.FALSE) := by
      intro lit hlit
      apply substLit_total
      intro v hv
      rcases hv with rfl | rfl
      · exact htot v (mem_cnfVars.mpr ⟨cl, hcl, Or.inl hlit⟩)
      · exact htot v (mem_cnfVars.mpr ⟨cl, hcl, Or.inr hlit⟩)
    by_cases hev : evalClause a cl = true
    · rw [if_pos hev]
      have hex : ∃ l0 ∈ cl, evalLit a l0 = true := by simpa [evalClause] using hev
      obtain ⟨lit, hlit, hevl⟩ := hex
      have hT : Lit.TRUE ∈ cl.image (substLit l) :=
        Finset.mem_image.mpr ⟨lit, hlit, by rw [hsub lit hlit, if_pos hevl]⟩
      rw [tautologically_reduce_clause, if_pos (Or.inl hT)]
    · rw [if_neg hev]
      have hnone : ∀ lit ∈ cl, ¬ evalLit a lit = true := by
        simpa [evalClause] using hev
      have hallF : ∀ m ∈ cl.image (substLit l), m = Lit.FALSE := by
        intro m hm
        obtain ⟨lit, hlit, rfl⟩ := Finset.mem_image.mp hm
        rw [hsub lit hlit, if_neg (hnone lit hlit)]
      rw [tautologically_reduce_clause, if_neg, if_pos]
      · rw [Finset.filter_eq_empty_iff]
        intro m hm
        simpa using hallF m hm
      · rintro (hT | ⟨m, hm, hnm⟩)
        · exact absurd (hallF _ hT) (by decide)
        · rw [hallF m hm] at hnm
          exact absurd (hallF _ hnm) (by decide)
  have himage : (C.image (fun cl => cl.image (substLit l))).image
      tautologically_reduce_clause =
      C.image (fun cl =>
        if evalClause a cl = true then ({Lit.TRUE} : Clause)
        else ({Lit.FALSE} : Clause)) := by
    rw [Finset.image_image]
    exact Finset.image_congr (fun cl hcl => hclred cl hcl)
  rw [assign, tautologically_reduce_cnf, himage]
  by_cases htrue : evalCnf a C = true
  · rw [if_pos htrue]
    have hall : ∀ cl ∈ C, evalClause a cl = true := by simpa [evalCnf] using htrue
    have hF : ({Lit.FALSE} : Clause) ∉ C.image (fun cl =>
        if evalClause a cl = true then ({Lit.TRUE} : Clause)
        else ({Lit.FALSE} : Clause)) := by
      intro hmem
      obtain ⟨cl, hcl, heq⟩ := Finset.mem_image.mp hmem
      rw [if_pos (hall cl hcl)] at heq
      exact absurd heq (by decide)
    rw [if_neg hF, if_pos]
    rw [Finset.eq_empty_iff_forall_not_mem]
    intro x hx
    obtain ⟨hxne, hxmem⟩ := Finset.mem_erase.mp hx
    obtain ⟨cl, hcl, heq⟩ := Finset.mem_image.mp hxmem
    rw [if_pos (hall cl hcl)] at heq
    exact hxne heq.symm
  · rw [if_neg htrue]
    have hex : ∃ cl ∈ C, ¬ evalClause a cl = true := by simpa [evalCnf] using htrue
    obtain ⟨cl, hcl, hev⟩ := hex
    have hF : ({Lit.FALSE} : Clause) ∈ C.image (fun cl =>
        if evalClause a cl = true then ({Lit.TRUE} : Clause)
        else ({Lit.FALSE} : Clause)) :=
      Finset.mem_image.mpr ⟨cl, hcl, by rw [if_neg hev]⟩
    rw [if_pos hF]

theorem assign_total_iff (C : Cnf) (l : List (Nat × Bool))
    (htot : ∀ v ∈ cnfVars C, (l.lookup v).isSome = true) :
    (assign C l = TRUE_CNF ↔
      evalCnf (fun v => (l.lookup v).getD false) C = true) := by
  rw [assign_total C l htot]
  by_cases h : evalCnf (fun v => (l.lookup v).getD false) C = true
  · simp [h]
  · simp only [if_neg h]
    constructor
    · intro heq
      exact absurd heq (by decide)
    · intro heq
      exact absurd heq h

theorem generate_assignments_eq (C : Cnf) :
    generate_assignments (tautologically_reduce_cnf C) =
      (boolTuples (natList (cnfVars (tautologically_reduce_cnf C))).length).map
        (fun bs => (natList (cnfVars (tautologically_reduce_cnf C))).zip bs) := by
  simp only [generate_assignments, reduce_idem]

theorem cnf_bruteforce_satcheck_iff (C : Cnf) :
    cnf_bruteforce_satcheck C = true ↔ Satisfiable C := by
  by_cases hT : tautologically_reduce_cnf C = TRUE_CNF
  · simp only [cnf_bruteforce_satcheck, if_pos hT]
    constructor
    · intro _
      exact ⟨fun _ => true, sat_of_reduce_TRUE hT _⟩
    · intro _
      trivial
  by_cases hF : tautologically_reduce_cnf C = FALSE_CNF
  · simp only [cnf_bruteforce_satcheck, if_neg hT, if_pos hF]
    constructor
    · intro h
      exact absurd h (by decide)
    · rintro ⟨a, ha⟩
      rw [unsat_of_reduce_FALSE hF a] at ha
      exact absurd ha (by decide)
  · simp only [cnf_bruteforce_satcheck, if_neg hT, if_neg hF, List.any_eq_true,
      generate_assignments_eq, List.mem_map, decide_eq_true_eq]
    constructor
    · rintro ⟨l, ⟨bs, hbs, rfl⟩, hassign⟩
      rw [mem_boolTuples] at hbs
      have htot : ∀ v ∈ cnfVars (tautologically_reduce_cnf C),
          (((natList (cnfVars (tautologically_reduce_cnf C))).zip bs).lookup v).isSome
            = true := by
        intro v hv
        exact lookup_zip_isSome hbs.symm (mem_natList.mpr hv)
      have hsatr := (assign_total_iff _ _ htot).mp hassign
      exact (satisfiable_reduce C).mp ⟨_, hsatr⟩
    · intro hsat
      obtain ⟨a, ha⟩ := (satisfiable_reduce C).mpr hsat
      set vs := natList (cnfVars (tautologically_reduce_cnf C)) with hvs
      have htot : ∀ v ∈ cnfVars (tautologically_reduce_cnf C),
          (((vs.zip (vs.map a)).lookup v).isSome) = true := by
        intro v hv
        rw [lookup_zip_map a (mem_natList.mpr hv)]
        rfl
      refine ⟨vs.zip (vs.map a), ⟨vs.map a, mem_boolTuples.mpr (by simp), rfl⟩, ?_⟩
      apply (assign_total_iff _ _ htot).mpr
      rw [evalCnf_congr (b := a)]
      · exact ha
      · intro v hv
        rw [lookup_zip_map a (mem_natList.mpr hv)]
        rfl

theorem bool_eq_of_iff {a b : Bool} (h : a = true ↔ b = true) : a = b := by
  cases a <;> cases b <;> simp_all

theorem reduced_no_sentinel {C : Cnf}
    (h1 : tautologically_reduce_cnf C ≠ TRUE_CNF)
    (h2 : tautologically_reduce_cnf C ≠ FALSE_CNF) :
    hasSentinel (tautologically_reduce_cnf C) = false := by
  obtain ⟨-, hstruct⟩ := reduced_nontrivial_struct h1 h2
  simp only [hasSentinel, decide_eq_false_iff_not, not_exists]
  intro cl
  rintro ⟨hcl, hT | hF⟩
  · exact (hstruct cl hcl).2.1 hT
  · exact (hstruct cl hcl).2.2.1 hF

theorem cnf_pysat_satcheck_eq (C : Cnf) :
    cnf_pysat_satcheck C = Except.ok (cnf_bruteforce_satcheck C) := by
  by_cases hs : hasSentinel C = true
  · rw [cnf_pysat_satcheck, Minisat22_solve, if_pos hs]
    by_cases hT : tautologically_reduce_cnf C = TRUE_CNF
    · rw [if_pos hT, cnf_bruteforce_satcheck, if_pos hT]
    by_cases hF : tautologically_reduce_cnf C = FALSE_CNF
    · rw [if_neg hT, if_pos hF, cnf_bruteforce_satcheck, if_neg hT, if_pos hF]
    · rw [if_neg hT, if_neg hF, Minisat22_solve,
        if_neg (by rw [reduced_no_sentinel hT hF]; simp)]
      dsimp only
      congr 1
      apply bool_eq_of_iff
      rw [satDecision_iff, cnf_bruteforce_satcheck_iff, satisfiable_reduce]
  · rw [cnf_pysat_satcheck, Minisat22_solve, if_neg hs]
    dsimp only
    congr 1
    apply bool_eq_of_iff
    rw [satDecision_iff, cnf_bruteforce_satcheck_iff]

theorem mem_intVars {f : List (List Int)} {cl : List Int} {i : Int}
    (hcl : cl ∈ f) (hi : i ∈ cl) : i.natAbs ∈ intVars f := by
  simp only [intVars, List.mem_toFinset, List.mem_flatten, List.mem_map]
  exact ⟨cl.map Int.natAbs, ⟨cl, hcl, rfl⟩, List.mem_map.mpr ⟨i, hi, rfl⟩⟩

theorem intEvalLit_congr {a b : Nat → Bool} {i : Int} (h : a i.natAbs = b i.natAbs) :
    intEvalLit a i = intEvalLit b i := by
  unfold intEvalLit
  rw [h]

theorem intSatDecision_iff {f : List (List Int)} :
    intSatDecision f = true ↔ IntSatisfiable f := by
  unfold intSatDecision
  rw [List.any_eq_true]
  constructor
  · rintro ⟨bs, -, hev⟩
    rw [List.all_eq_true] at hev
    refine ⟨fun v => (((natList (intVars f)).zip bs).lookup v).getD false, ?_⟩
    intro cl hcl
    have h := hev cl hcl
    rw [List.any_eq_true] at h
    exact h
  · rintro ⟨a, ha⟩
    set vs := natList (intVars f) with hvs
    refine ⟨vs.map a, mem_boolTuples.mpr (by simp), ?_⟩
    rw [List.all_eq_true]
    intro cl hcl
    rw [List.any_eq_true]
    obtain ⟨i, hi, hev⟩ := ha cl hcl
    refine ⟨i, hi, ?_⟩
    have hmem : i.natAbs ∈ vs := hvs ▸ mem_natList.mpr (mem_intVars hcl hi)
    have hcongr : intEvalLit (fun v => ((vs.zip (vs.map a)).lookup v).getD false) i
        = intEvalLit a i :=
      intEvalLit_congr (by rw [lookup_zip_map a hmem]; rfl)
    rw [hcongr]
    exact hev

theorem mem_dimacs_lines {r : Cnf} {li : List Int} :
    li ∈ dimacs_lines r ↔ ∃ cl ∈ r, clause_ints cl = li := by
  simp [dimacs_lines, Finset.mem_sort, Finset.mem_image]

theorem intEvalLit_litToInt {a : Nat → Bool} {l : Lit} (hpos : litPositive l = true)
    (hT : l ≠ Lit.TRUE) (hF : l ≠ Lit.FALSE) :
    intEvalLit a (litToInt l) = evalLit a l := by
  cases l with
  | pos v =>
    have hv : 0 < v := by simpa [litPositive] using hpos
    have hvi : (0 : Int) < (v : Int) := by exact_mod_cast hv
    simp [intEvalLit, litToInt, evalLit, hvi]
  | neg v =>
    have hv : 0 < v := by simpa [litPositive] using hpos
    have hneg : ¬ (0 : Int) < -(v : Int) := by simp
    rw [intEvalLit, litToInt, if_neg hneg]
    simp [evalLit]
  | TRUE => exact absurd rfl hT
  | FALSE => exact absurd rfl hF

theorem clause_ints_eval {a : Nat → Bool} {cl : Clause}
    (hT : Lit.TRUE ∉ cl) (hF : Lit.FALSE ∉ cl)
    (hpos : ∀ l ∈ cl, litPositive l = true) :
    (∃ i ∈ clause_ints cl, intEvalLit a i = true) ↔ evalClause a cl = true := by
  simp only [clause_ints, Finset.mem_sort, Finset.mem_image, evalClause,
    decide_eq_true_eq]
  constructor
  · rintro ⟨i, ⟨l, hl, rfl⟩, hev⟩
    refine ⟨l, hl, ?_⟩
    rw [← intEvalLit_litToInt (hpos l hl) (fun h => hT (h ▸ hl)) (fun h => hF (h ▸ hl))]
    exact hev
  · rintro ⟨l, hl, hev⟩
    refine ⟨litToInt l, ⟨l, hl, rfl⟩, ?_⟩
    rw [intEvalLit_litToInt (hpos l hl) (fun h => hT (h ▸ hl)) (fun h => hF (h ▸ hl))]
    exact hev

theorem reduce_literals_subset {C : Cnf} {cl : Clause}
    (hcl : cl ∈ tautologically_reduce_cnf C) {l : Lit} (hl : l ∈ cl)
    (hT : l ≠ Lit.TRUE) (hF : l ≠ Lit.FALSE) :
    ∃ cl0 ∈ C, l ∈ cl0 := by
  by_cases h1 : tautologically_reduce_cnf C = TRUE_CNF
  · rw [h1, TRUE_CNF, Finset.mem_singleton] at hcl
    subst hcl
    exact absurd (Finset.mem_singleton.mp hl) hT
  by_cases h2 : tautologically_reduce_cnf C = FALSE_CNF
  · rw [h2, FALSE_CNF, Finset.mem_singleton] at hcl
    subst hcl
    exact absurd (Finset.mem_singleton.mp hl) hF
  rw [reduce_eq_erase h1 h2] at hcl
  obtain ⟨cl0, hcl0, hredc⟩ := Finset.mem_image.mp (Finset.mem_erase.mp hcl).2
  refine ⟨cl0, hcl0, ?_⟩
  rw [tautologically_reduce_clause] at hredc
  split at hredc
  · rw [← hredc] at hl
    exact absurd (Finset.mem_singleton.mp hl) hT
  · split at hredc
    · rw [← hredc] at hl
      exact absurd (Finset.mem_singleton.mp hl) hF
    · rw [← hredc] at hl
      exact (Finset.mem_filter.mp hl).1

theorem representable_reduce {C : Cnf} (h : Representable C) :
    Representable (tautologically_reduce_cnf C) := by
  intro cl hcl l hl
  by_cases hT : l = Lit.TRUE
  · rw [hT]; rfl
  by_cases hF : l = Lit.FALSE
  · rw [hF]; rfl
  obtain ⟨cl0, hcl0, hl0⟩ := reduce_literals_subset hcl hl hT hF
  exact h cl0 hcl0 l hl0

theorem dimacs_bridge {C : Cnf}
    (h1 : tautologically_reduce_cnf C ≠ TRUE_CNF)
    (h2 : tautologically_reduce_cnf C ≠ FALSE_CNF)
    (hrep : Representable C) :
    (IntSatisfiable (dimacs_lines (tautologically_reduce_cnf C)) ↔ Satisfiable C) := by
  obtain ⟨-, hstruct⟩ := reduced_nontrivial_struct h1 h2
  have hrrep := representable_reduce hrep
  rw [← satisfiable_reduce C]
  unfold IntSatisfiable Satisfiable
  apply exists_congr
  intro a
  constructor
  · intro h
    simp only [evalCnf, decide_eq_true_eq]
    intro cl hcl
    have hline := h (clause_ints cl) (mem_dimacs_lines.mpr ⟨cl, hcl, rfl⟩)
    exact (clause_ints_eval (hstruct cl hcl).2.1 (hstruct cl hcl).2.2.1
      (fun l hl => hrrep cl hcl l hl)).mp hline
  · intro h li hli
    obtain ⟨cl, hcl, rfl⟩ := mem_dimacs_lines.mp hli
    simp only [evalCnf, decide_eq_true_eq] at h
    exact (clause_ints_eval (hstruct cl hcl).2.1 (hstruct cl hcl).2.2.1
      (fun l hl => hrrep cl hcl l hl)).mpr (h cl hcl)

theorem minisat_verdict_exec (f : List (List Int)) :
    minisat_verdict (minisat_exec_output f) = Except.ok (intSatDecision f) := by
  unfold minisat_exec_output
  by_cases h : intSatDecision f = true
  · rw [if_pos h, h]
    rfl
  · rw [Bool.not_eq_true] at h
    rw [if_neg (by rw [h]; exact Bool.false_ne_true), h]
    rfl

set_option maxHeartbeats 1000000 in
theorem cnf_minisat_satcheck_eq {C : Cnf} (hrep : Representable C) :
    cnf_minisat_satcheck C = Except.ok (cnf_bruteforce_satcheck C) := by
  simp only [cnf_minisat_satcheck, cnf_minisat_satcheck_io]
  rw [minisat_verdict_exec]
  congr 1
  by_cases hT : tautologically_reduce_cnf C = TRUE_CNF
  · rw [dimacsList, if_pos hT, cnf_bruteforce_satcheck, if_pos hT]
    decide
  by_cases hF : tautologically_reduce_cnf C = FALSE_CNF
  · rw [dimacsList, if_neg hT, if_pos hF, cnf_bruteforce_satcheck, if_neg hT, if_pos hF]
    decide
  · rw [dimacsList, if_neg hT, if_neg hF]
    apply bool_eq_of_iff
    rw [intSatDecision_iff, cnf_bruteforce_satcheck_iff, dimacs_bridge hT hF hrep]

/-- C1: for every valid CNF with at most 6 variables, the three sat-check
strategies agree: the library strategy and the process strategy return
exactly the verdict of the brute-force strategy (as successful results, the
external collaborators being spec-modelled as correct solvers). -/
theorem claim_C1_strategy_agreement (C : Cnf) (hvalid : ValidCnf C)
    (hrep : Representable C) (hsmall : (cnfVars C).card ≤ 6) :
    cnf_pysat_satcheck C = Except.ok (cnf_bruteforce_satcheck C) ∧
    cnf_minisat_satcheck C = Except.ok (cnf_bruteforce_satcheck C) :=
  ⟨cnf_pysat_satcheck_eq C, cnf_minisat_satcheck_eq hrep⟩

/-- Witness for C1 at the concrete CNF `[[1, 2], [-1, 2], [1, -2]]`. -/
theorem claim_C1_strategy_agreement_witness :
    (ValidCnf (cnf [[1, 2], [-1, 2], [1, -2]]) ∧
      Representable (cnf [[1, 2], [-1, 2], [1, -2]]) ∧
      (cnfVars (cnf [[1, 2], [-1, 2], [1, -2]])).card ≤ 6) ∧
    (cnf_pysat_satcheck (cnf [[1, 2], [-1, 2], [1, -2]]) =
        Except.ok (cnf_bruteforce_satcheck (cnf [[1, 2], [-1, 2], [1, -2]])) ∧
      cnf_minisat_satcheck (cnf [[1, 2], [-1, 2], [1, -2]]) =
        Except.ok (cnf_bruteforce_satcheck (cnf [[1, 2], [-1, 2], [1, -2]]))) :=
  ⟨⟨by decide, by decide, by decide⟩,
    claim_C1_strategy_agreement _ (by decide) (by decide) (by decide)⟩

/-- C4: the brute-force satcheck returns `true` on a CNF reducing to
`TRUE_CNF`, `false` on one reducing to `FALSE_CNF`, and otherwise returns
`true` exactly when some total assignment over the reduced CNF's free
variables makes `assign` of the reduced CNF equal `TRUE_CNF`; in particular
it returns `false` on `[[1, 2], [1, -2], [-1, 2], [-1, -2]]`. -/
theorem claim_C4_bruteforce_spec (C : Cnf) :
    (tautologically_reduce_cnf C = TRUE_CNF → cnf_bruteforce_satcheck C = true) ∧
    (tautologically_reduce_cnf C = FALSE_CNF → cnf_bruteforce_satcheck C = false) ∧
    (tautologically_reduce_cnf C ≠ TRUE_CNF → tautologically_reduce_cnf C ≠ FALSE_CNF →
      (cnf_bruteforce_satcheck C = true ↔
        ∃ l : List (Nat × Bool), (l.map Prod.fst).Nodup ∧
          (l.map Prod.fst).toFinset = cnfVars (tautologically_reduce_cnf C) ∧
          assign (tautologically_reduce_cnf C) l = TRUE_CNF)) ∧
    cnf_bruteforce_satcheck (cnf [[1, 2], [1, -2], [-1, 2], [-1, -2]]) = false := by
  refine ⟨?_, ?_, ?_, by decide⟩
  · intro hT
    rw [cnf_bruteforce_satcheck, if_pos hT]
  · intro hF
    by_cases hT : tautologically_reduce_cnf C = TRUE_CNF
    · rw [hT] at hF
      exact absurd hF (by decide)
    · rw [cnf_bruteforce_satcheck, if_neg hT, if_pos hF]
  · intro hT hF
    rw [cnf_bruteforce_satcheck_iff]
    constructor
    · intro hsat
      obtain ⟨a, ha⟩ := (satisfiable_reduce C).mpr hsat
      set vs := natList (cnfVars (tautologically_reduce_cnf C)) with hvs
      have hkeys : (vs.zip (vs.map a)).map Prod.fst = vs :=
        List.map_fst_zip _ _ (by simp)
      have htot : ∀ v ∈ cnfVars (tautologically_reduce_cnf C),
          (((vs.zip (vs.map a)).lookup v).isSome) = true := by
        intro v hv
        rw [lookup_zip_map a (hvs ▸ mem_natList.mpr hv)]
        rfl
      refine ⟨vs.zip (vs.map a), ?_, ?_, ?_⟩
      · rw [hkeys]
        exact natList_nodup _
      · rw [hkeys, hvs, natList_toFinset]
      · apply (assign_total_iff _ _ htot).mpr
        rw [evalCnf_congr (b := a)]
        · exact ha
        · intro v hv
          rw [lookup_zip_map a (hvs ▸ mem_natList.mpr hv)]
          rfl
    · rintro ⟨l, hnodup, hkeys, hassign⟩
      have htot : ∀ v ∈ cnfVars (tautologically_reduce_cnf C),
          ((l.lookup v).isSome) = true := by
        intro v hv
        apply lookup_isSome_of_mem_keys
        rw [← List.mem_toFinset, hkeys]
        exact hv
      have hev := (assign_total_iff _ _ htot).mp hassign
      exact (satisfiable_reduce C).mp ⟨_, hev⟩

/-- Witness for C4: the concrete unsatisfiable example, through the theorem. -/
theorem claim_C4_bruteforce_spec_witness :
    cnf_bruteforce_satcheck (cnf [[1, 2], [1, -2], [-1, 2], [-1, -2]]) = false :=
  (claim_C4_bruteforce_spec (cnf [[1, 2], [1, -2], [-1, 2], [-1, -2]])).2.2.2

/-- C5: `generate_assignments` yields exactly `2 ^ n` assignments, `n` the
number of free variables of the tautological reduction; every yielded
assignment is a total mapping on exactly that variable set; and for `n = 0`
the sequence is exactly the one-element sequence of the empty mapping. -/
theorem claim_C5_generate_assignments (C : Cnf) :
    (generate_assignments C).length =
      2 ^ (cnfVars (tautologically_reduce_cnf C)).card ∧
    (∀ l ∈ generate_assignments C,
      (l.map Prod.fst).Nodup ∧
      (l.map Prod.fst).toFinset = cnfVars (tautologically_reduce_cnf C)) ∧
    ((cnfVars (tautologically_reduce_cnf C)).card = 0 →
      generate_assignments C = [[]]) := by
  refine ⟨?_, ?_, ?_⟩
  · simp only [generate_assignments, List.length_map, length_boolTuples,
      natList_length]
  · intro l hl
    simp only [generate_assignments, List.mem_map] at hl
    obtain ⟨bs, hbs, rfl⟩ := hl
    rw [mem_boolTuples] at hbs
    have hkeys : ((natList (cnfVars (tautologically_reduce_cnf C))).zip bs).map
        Prod.fst = natList (cnfVars (tautologically_reduce_cnf C)) :=
      List.map_fst_zip _ _ (by rw [hbs])
    rw [hkeys]
    exact ⟨natList_nodup _, natList_toFinset _⟩
  · intro hcard
    have hnil : natList (cnfVars (tautologically_reduce_cnf C)) = [] := by
      rw [← List.length_eq_zero, natList_length, hcard]
    simp only [generate_assignments, hnil]
    rfl

/-- Witness for C5: the zero-variable case at `TRUE_CNF`, through the
theorem. -/
theorem claim_C5_generate_assignments_witness :
    (cnfVars (tautologically_reduce_cnf TRUE_CNF)).card = 0 ∧
    generate_assignments TRUE_CNF = [[]] :=
  ⟨by decide, (claim_C5_generate_assignments TRUE_CNF).2.2 (by decide)⟩

/-- C8: the process strategy parses the final whitespace-delimited token of
the external solver's output: `True` on `SATISFIABLE`, `False` on
`UNSATISFIABLE`, and a fatal error carrying the raw output on any other
terminal token. -/
theorem claim_C8_minisat_verdict_spec (C : Cnf) (out : String) (t : String)
    (h : lastToken out = some t) :
    (t = "SATISFIABLE" → cnf_minisat_satcheck_io C out = Except.ok true) ∧
    (t = "UNSATISFIABLE" → cnf_minisat_satcheck_io C out = Except.ok false) ∧
    (t ≠ "SATISFIABLE" → t ≠ "UNSATISFIABLE" →
      cnf_minisat_satcheck_io C out =
        Except.error ("Unexpected output from minisat.", out)) := by
  simp only [cnf_minisat_satcheck_io, minisat_verdict, h]
  refine ⟨?_, ?_, ?_⟩
  · intro ht
    rw [if_pos ht]
  · intro ht
    by_cases hS : t = "SATISFIABLE"
    · rw [hS] at ht
      exact absurd ht (by decide)
    · rw [if_neg hS, if_pos ht]
  · intro h1 h2
    rw [if_neg h1, if_neg h2]

/-- Witness for C8 at a concrete solver output with terminal token
`SATISFIABLE`. -/
theorem claim_C8_minisat_verdict_spec_witness :
    lastToken "c noise\nSATISFIABLE" = some "SATISFIABLE" ∧
    cnf_minisat_satcheck_io (cnf [[1]]) "c noise\nSATISFIABLE" = Except.ok true :=
  ⟨by decide,
    (claim_C8_minisat_verdict_spec (cnf [[1]]) "c noise\nSATISFIABLE"
      "SATISFIABLE" (by decide)).1 rfl⟩

theorem litToInt_inj {l1 l2 : Lit}
    (hp1 : litPositive l1 = true) (hp2 : litPositive l2 = true)
    (hT1 : l1 ≠ Lit.TRUE) (hF1 : l1 ≠ Lit.FALSE)
    (hT2 : l2 ≠ Lit.TRUE) (hF2 : l2 ≠ Lit.FALSE)
    (h : litToInt l1 = litToInt l2) : l1 = l2 := by
  cases l1 with
  | TRUE => exact absurd rfl hT1
  | FALSE => exact absurd rfl hF1
  | pos v =>
    have hv : 0 < v := by simpa [litPositive] using hp1
    cases l2 with
    | TRUE => exact absurd rfl hT2
    | FALSE => exact absurd rfl hF2
    | pos w =>
      simp only [litToInt, Int.natCast_inj] at h
      rw [h]
    | neg w =>
      have hw : 0 < w := by simpa [litPositive] using hp2
      exfalso
      simp only [litToInt] at h
      omega
  | neg v =>
    have hv : 0 < v := by simpa [litPositive] using hp1
    cases l2 with
    | TRUE => exact absurd rfl hT2
    | FALSE => exact absurd rfl hF2
    | pos w =>
      have hw : 0 < w := by simpa [litPositive] using hp2
      exfalso
      simp only [litToInt] at h
      omega
    | neg w =>
      simp only [litToInt, neg_inj, Int.natCast_inj] at h
      rw [h]

theorem clause_ints_injOn {C : Cnf}
    (h1 : tautologically_reduce_cnf C ≠ TRUE_CNF)
    (h2 : tautologically_reduce_cnf C ≠ FALSE_CNF)
    (hrep : Representable C) :
    ∀ cl1 ∈ tautologically_reduce_cnf C, ∀ cl2 ∈ tautologically_reduce_cnf C,
      clause_ints cl1 = clause_ints cl2 → cl1 = cl2 := by
  obtain ⟨-, hstruct⟩ := reduced_nontrivial_struct h1 h2
  have hrrep := representable_reduce hrep
  intro cl1 hcl1 cl2 hcl2 heq
  have himg : cl1.image litToInt = cl2.image litToInt := by
    have := congrArg List.toFinset heq
    simpa [clause_ints, Finset.sort_toFinset] using this
  ext l
  constructor
  · intro hl
    have hmem : litToInt l ∈ cl2.image litToInt := himg ▸ Finset.mem_image_of_mem _ hl
    obtain ⟨m, hm, hml⟩ := Finset.mem_image.mp hmem
    rwa [litToInt_inj (hrrep cl2 hcl2 m hm) (hrrep cl1 hcl1 l hl)
      (fun h => (hstruct cl2 hcl2).2.1 (h ▸ hm))
      (fun h => (hstruct cl2 hcl2).2.2.1 (h ▸ hm))
      (fun h => (hstruct cl1 hcl1).2.1 (h ▸ hl))
      (fun h => (hstruct cl1 hcl1).2.2.1 (h ▸ hl)) hml] at hm
  · intro hl
    have hmem : litToInt l ∈ cl1.image litToInt := himg ▸ Finset.mem_image_of_mem _ hl
    obtain ⟨m, hm, hml⟩ := Finset.mem_image.mp hmem
    rwa [litToInt_inj (hrrep cl1 hcl1 m hm) (hrrep cl2 hcl2 l hl)
      (fun h => (hstruct cl1 hcl1).2.1 (h ▸ hm))
      (fun h => (hstruct cl1 hcl1).2.2.1 (h ▸ hm))
      (fun h => (hstruct cl2 hcl2).2.1 (h ▸ hl))
      (fun h => (hstruct cl2 hcl2).2.2.1 (h ▸ hl)) hml] at hm

/-- C6: the DIMACS serializer returns `""` when the CNF reduces to
`TRUE_CNF`, `"0"` when it reduces to `FALSE_CNF`, and otherwise one line per
reduced clause — the space-separated literal integers followed by a trailing
`0` — joined by newline, with no header line. -/
theorem claim_C6_cnf_to_dimacs_spec (C : Cnf) (hrep : Representable C) :
    (tautologically_reduce_cnf C = TRUE_CNF → cnf_to_dimacs C = "") ∧
    (tautologically_reduce_cnf C = FALSE_CNF → cnf_to_dimacs C = "0") ∧
    (tautologically_reduce_cnf C ≠ TRUE_CNF → tautologically_reduce_cnf C ≠ FALSE_CNF →
      ∃ lines : List String,
        cnf_to_dimacs C = String.intercalate "\n" lines ∧
        lines.length = (tautologically_reduce_cnf C).card ∧
        (∀ cl ∈ tautologically_reduce_cnf C,
          String.intercalate " " ((clause_ints cl).map toString) ++ " 0" ∈ lines) ∧
        (∀ s ∈ lines, ∃ cl ∈ tautologically_reduce_cnf C,
          s = String.intercalate " " ((clause_ints cl).map toString) ++ " 0")) := by
  refine ⟨?_, ?_, ?_⟩
  · intro hT
    rw [cnf_to_dimacs, if_pos hT]
  · intro hF
    by_cases hT : tautologically_reduce_cnf C = TRUE_CNF
    · rw [hT] at hF
      exact absurd hF (by decide)
    · rw [cnf_to_dimacs, if_neg hT, if_pos hF]
  · intro hT hF
    refine ⟨(dimacs_lines (tautologically_reduce_cnf C)).map
      (fun li => String.intercalate " " (li.map toString) ++ " 0"), ?_, ?_, ?_, ?_⟩
    · rw [cnf_to_dimacs, if_neg hT, if_neg hF]
    · rw [List.length_map, dimacs_lines, Finset.length_sort,
        Finset.card_image_of_injOn]
      intro cl1 hcl1 cl2 hcl2
      exact clause_ints_injOn hT hF hrep cl1 hcl1 cl2 hcl2
    · intro cl hcl
      exact List.mem_map.mpr ⟨clause_ints cl, mem_dimacs_lines.mpr ⟨cl, hcl, rfl⟩, rfl⟩
    · intro s hs
      obtain ⟨li, hli, rfl⟩ := List.mem_map.mp hs
      obtain ⟨cl, hcl, rfl⟩ := mem_dimacs_lines.mp hli
      exact ⟨cl, hcl, rfl⟩

/-- Witness for C6 at the concrete CNF `[[1]]`. -/
theorem claim_C6_cnf_to_dimacs_spec_witness :
    Representable (cnf [[1]]) ∧
    (tautologically_reduce_cnf (cnf [[1]]) = TRUE_CNF → cnf_to_dimacs (cnf [[1]]) = "") :=
  ⟨by decide, (claim_C6_cnf_to_dimacs_spec (cnf [[1]]) (by decide)).1⟩

/-- C9: the graph constructor deduplicates repeated and reordered edge
collections: the five given edge inputs yield exactly the three-edge simple
graph on the vertex set `{1, 2, 3}`. -/
theorem claim_C9_graph_example :
    graph [[1, 2], [1, 2], [2, 3], [3, 1], [3, 2]] =
      Except.ok {({1, 2} : Finset Nat), {2, 3}, {1, 3}} ∧
    vertices {({1, 2} : Finset Nat), {2, 3}, {1, 3}} = {1, 2, 3} := by decide

/-- C10: a two-element self-loop-shaped input collection `[v, v]` is silently
collapsed by set deduplication into the single-vertex edge, identical to
`edge [v]`, rather than rejected. -/
theorem claim_C10_edge_selfpair (v : Int) (hv : 0 < v) :
    edge [v, v] = Except.ok {v.toNat} ∧ edge [v, v] = edge [v] := by
  have h : ¬ v ≤ 0 := not_le.mpr hv
  constructor
  · simp [edge, vertex, List.mapM, List.mapM.loop, h, Bind.bind, Except.bind,
      pure, Except.pure, List.toFinset_cons, List.toFinset_nil, Finset.insert_idem]
  · simp [edge, vertex, List.mapM, List.mapM.loop, h, Bind.bind, Except.bind,
      pure, Except.pure, List.toFinset_cons, List.toFinset_nil, Finset.insert_idem]

/-- Witness for C10 at `v = 7`. -/
theorem claim_C10_edge_selfpair_witness :
    (0 : Int) < 7 ∧
    (edge [7, 7] = Except.ok {(7 : Int).toNat} ∧ edge [7, 7] = edge [7]) :=
  ⟨by decide, claim_C10_edge_selfpair 7 (by decide)⟩

/-- C7: `cnfs_from_hedge` raises its domain error exactly when the
multiplicity lies outside `[1, 2 ^ arity]`; the bound is not enforced by the
MHGraph constructor, which accepts the out-of-range multiplicity 3 on a
1-vertex hyperedge that `cnfs_from_hedge` then rejects. -/
theorem claim_C7_cnfs_from_hedge_bounds (hedge : Finset Nat) (m : Int) :
    ((∃ msg, cnfs_from_hedge hedge m = Except.error msg) ↔
      (m < 1 ∨ (2 : Int) ^ hedge.card < m)) ∧
    (∃ M, mhgraph (Multiset.ofList [[1], [1], [1]]) = Except.ok M ∧
      M.count ({1} : Finset Nat) = 3) ∧
    (∃ msg, cnfs_from_hedge ({1} : Finset Nat) 3 = Except.error msg) := by
  refine ⟨?_, ⟨Multiset.ofList [{1}, {1}, {1}], by decide, by decide⟩,
    "Multiplicity value not within permissible range.", by decide⟩
  rw [cnfs_from_hedge]
  split
  · next hin =>
    constructor
    · rintro ⟨msg, hmsg⟩
      exact absurd hmsg (by simp)
    · intro hout
      exfalso
      rcases hout with hlt | hgt
      · omega
      · have := hin.2
        omega
  · next hout =>
    constructor
    · intro _
      push_neg at hout
      by_cases hlt : m < 1
      · exact Or.inl hlt
      · exact Or.inr (hout (by omega))
    · intro _
      exact ⟨_, rfl⟩

theorem support_mem_pos {C : Cnf}
    (h1 : tautologically_reduce_cnf C ≠ TRUE_CNF)
    (h2 : tautologically_reduce_cnf C ≠ FALSE_CNF)
    (hrep : Representable C) {cl : Clause}
    (hcl : cl ∈ tautologically_reduce_cnf C) {v : Nat} (hv : v ∈ support cl) :
    0 < v := by
  obtain ⟨-, hstruct⟩ := reduced_nontrivial_struct h1 h2
  have hrrep := representable_reduce hrep
  obtain ⟨l, hl, rfl⟩ := Finset.mem_image.mp hv
  have hplit := hrrep cl hcl l hl
  cases l with
  | pos w => simpa [litPositive, absolute_value] using hplit
  | neg w => simpa [litPositive, absolute_value] using hplit
  | TRUE => exact absurd hl (hstruct cl hcl).2.1
  | FALSE => exact absurd hl (hstruct cl hcl).2.2.1

theorem support_nonempty {C : Cnf}
    (h1 : tautologically_reduce_cnf C ≠ TRUE_CNF)
    (h2 : tautologically_reduce_cnf C ≠ FALSE_CNF) {cl : Clause}
    (hcl : cl ∈ tautologically_reduce_cnf C) : (support cl).Nonempty := by
  obtain ⟨-, hstruct⟩ := reduced_nontrivial_struct h1 h2
  exact ((hstruct cl hcl).1).image absolute_value

theorem mhgraph_from_cnf_ok {C : Cnf}
    (h1 : tautologically_reduce_cnf C ≠ TRUE_CNF)
    (h2 : tautologically_reduce_cnf C ≠ FALSE_CNF)
    (hrep : Representable C) :
    mhgraph_from_cnf C = Except.ok ((tautologically_reduce_cnf C).val.map support) := by
  obtain ⟨hne, -⟩ := reduced_nontrivial_struct h1 h2
  rw [mhgraph_from_cnf, if_neg (by push_neg; exact ⟨h1, h2⟩), mhgraph]
  rw [if_neg, if_pos]
  · rw [Multiset.map_map]
    congr 1
    apply Multiset.map_congr rfl
    intro cl _
    simp only [Function.comp]
    rw [List.map_map]
    have hco : (Int.toNat ∘ Int.ofNat) = id := by
      funext w
      simp
    rw [hco, List.map_id, natList_toFinset]
  · rw [Multiset.countP_eq_zero]
    intro l hl
    obtain ⟨cl, hcl, rfl⟩ := Multiset.mem_map.mp hl
    simp only [validHedgeInput, Bool.not_eq_false, Bool.and_eq_true, decide_eq_true_eq,
      List.all_eq_true]
    constructor
    · have hlen : (natList (support cl)).length = (support cl).card := natList_length _
      have hpos : 0 < (support cl).card := Finset.card_pos.mpr (support_nonempty h1 h2 hcl)
      intro hnil
      rw [List.map_eq_nil_iff] at hnil
      rw [hnil] at hlen
      simp at hlen
      omega
    · intro i hi
      obtain ⟨v, hv, rfl⟩ := List.mem_map.mp hi
      have hvp := support_mem_pos h1 h2 hrep hcl (mem_natList.mp hv)
      simpa using hvp
  · intro hzero
    rw [Multiset.map_eq_zero] at hzero
    have : tautologically_reduce_cnf C = ∅ := Finset.val_eq_zero.mp hzero
    rw [this] at hne
    exact absurd hne (by simp)

/-- C3: `mhgraph_from_cnf` raises its domain error exactly on CNFs reducing
to `TRUE_CNF`/`FALSE_CNF`; otherwise each HEdge of the result is a reduced
clause's variable-support and its multiplicity is the number of distinct
reduced clauses with that support; in particular the example CNF yields
HEdge `{1,2}` with multiplicity 2 and `{2,3,4}` with multiplicity 1. -/
theorem claim_C3_mhgraph_from_cnf_spec (C : Cnf) (hrep : Representable C) :
    ((∃ msg, mhgraph_from_cnf C = Except.error msg) ↔
      (tautologically_reduce_cnf C = TRUE_CNF ∨
        tautologically_reduce_cnf C = FALSE_CNF)) ∧
    (∀ M, mhgraph_from_cnf C = Except.ok M →
      ∀ e : Finset Nat, M.count e = supportCount (tautologically_reduce_cnf C) e) ∧
    (∃ M, mhgraph_from_cnf (cnf [[1, -2], [2, 3, 4], [1, 2]]) = Except.ok M ∧
      M.count ({1, 2} : Finset Nat) = 2 ∧ M.count ({2, 3, 4} : Finset Nat) = 1) := by
  refine ⟨?_, ?_, Multiset.ofList [{1, 2}, {1, 2}, {2, 3, 4}], by decide, by decide,
    by decide⟩
  · constructor
    · rintro ⟨msg, hmsg⟩
      by_contra hcon
      push_neg at hcon
      rw [mhgraph_from_cnf_ok hcon.1 hcon.2 hrep] at hmsg
      exact absurd hmsg (by simp)
    · intro htriv
      rw [mhgraph_from_cnf, if_pos htriv]
      exact ⟨_, rfl⟩
  · intro M hM e
    by_cases h1 : tautologically_reduce_cnf C = TRUE_CNF
    · rw [mhgraph_from_cnf, if_pos (Or.inl h1)] at hM
      exact absurd hM (by simp)
    by_cases h2 : tautologically_reduce_cnf C = FALSE_CNF
    · rw [mhgraph_from_cnf, if_pos (Or.inr h2)] at hM
      exact absurd hM (by simp)
    rw [mhgraph_from_cnf_ok h1 h2 hrep] at hM
    have hMeq : M = (tautologically_reduce_cnf C).val.map support := by
      cases hM
      rfl
    have hcard : supportCount (tautologically_reduce_cnf C) e =
        Multiset.card ((tautologically_reduce_cnf C).val.filter
          (fun cl => support cl = e)) := by
      rw [supportCount, Finset.card, Finset.filter_val]
    rw [hMeq, Multiset.count_map, hcard]
    congr 1
    apply Multiset.filter_congr
    intro cl _
    exact eq_comm

theorem length_signProd (ps : List (Lit × Lit)) :
    (signProd ps).length = 2 ^ ps.length := by
  induction ps with
  | nil => rfl
  | cons p ps ih =>
    simp [signProd, ih, pow_succ, Nat.mul_two]

theorem signProd_vars {vs : List Nat} {t : List Lit}
    (ht : t ∈ signProd (vs.map literals_from_vertex)) :
    t.map absolute_value = vs := by
  induction vs generalizing t with
  | nil =>
    simp only [List.map_nil, signProd, List.mem_singleton] at ht
    subst ht
    rfl
  | cons v vs ih =>
    simp only [List.map_cons, signProd, List.mem_append, List.mem_map] at ht
    rcases ht with ⟨s, hs, rfl⟩ | ⟨s, hs, rfl⟩ <;>
      simp [literals_from_vertex, neg, absolute_value, ih hs]

theorem signProd_nodup (ps : List (Lit × Lit)) (hps : ∀ p ∈ ps, p.1 ≠ p.2) :
    (signProd ps).Nodup := by
  induction ps with
  | nil => exact List.nodup_singleton _
  | cons p ps ih =>
    simp only [signProd]
    apply List.Nodup.append
    · exact (ih (fun q hq => hps q (List.mem_cons_of_mem _ hq))).map
        (List.cons_injective)
    · exact (ih (fun q hq => hps q (List.mem_cons_of_mem _ hq))).map
        (List.cons_injective)
    · intro t ht1 ht2
      obtain ⟨s1, -, rfl⟩ := List.mem_map.mp ht1
      obtain ⟨s2, -, heq⟩ := List.mem_map.mp ht2
      have hhead : p.2 = p.1 := by injection heq
      exact hps p (List.mem_cons_self _ _) hhead.symm

theorem signProd_var_of_mem {vs : List Nat} {t : List Lit}
    (ht : t ∈ signProd (vs.map literals_from_vertex)) {l : Lit} (hl : l ∈ t) :
    absolute_value l ∈ vs := by
  rw [← signProd_vars ht]
  exact List.mem_map_of_mem _ hl

theorem signProd_toFinset_inj {vs : List Nat} (hvs : vs.Nodup) :
    ∀ t1 ∈ signProd (vs.map literals_from_vertex),
      ∀ t2 ∈ signProd (vs.map literals_from_vertex),
        t1.toFinset = t2.toFinset → t1 = t2 := by
  induction vs with
  | nil =>
    intro t1 ht1 t2 ht2 _
    simp only [List.map_nil, signProd, List.mem_singleton] at ht1 ht2
    rw [ht1, ht2]
  | cons v vs ih =>
    intro t1 ht1 t2 ht2 heq
    have hvnotin : v ∉ vs := (List.nodup_cons.mp hvs).1
    have hvs2 : vs.Nodup := (List.nodup_cons.mp hvs).2
    simp only [List.map_cons, signProd, List.mem_append, List.mem_map] at ht1 ht2
    have hnotmem : ∀ s ∈ signProd (vs.map literals_from_vertex),
        Lit.pos v ∉ s ∧ Lit.neg v ∉ s := by
      intro s hs
      constructor
      · intro hmem
        exact hvnotin (signProd_var_of_mem hs hmem)
      · intro hmem
        exact hvnotin (signProd_var_of_mem hs hmem)
    have hhead : ∀ l : Lit, ∀ s1 s2 : List Lit,
        s1 ∈ signProd (vs.map literals_from_vertex) →
        s2 ∈ signProd (vs.map literals_from_vertex) →
        l ∉ s1 → l ∉ s2 →
        (l :: s1).toFinset = (l :: s2).toFinset → l :: s1 = l :: s2 := by
      intro l s1 s2 hs1 hs2 hl1 hl2 he
      simp only [List.toFinset_cons] at he
      have hs1f : s1.toFinset = s2.toFinset := by
        have h1 : s1.toFinset = (insert l s1.toFinset).erase l :=
          (Finset.erase_insert (by simpa using hl1)).symm
        rw [h1, he, Finset.erase_insert (by simpa using hl2)]
      rw [ih hvs2 s1 hs1 s2 hs2 hs1f]
    have hcross : ∀ s1 s2 : List Lit,
        s1 ∈ signProd (vs.map literals_from_vertex) →
        s2 ∈ signProd (vs.map literals_from_vertex) →
        (Lit.pos v :: s1).toFinset ≠ (Lit.neg v :: s2).toFinset := by
      intro s1 s2 hs1 hs2 he
      simp only [List.toFinset_cons] at he
      have : Lit.pos v ∈ insert (Lit.neg v) s2.toFinset := by
        rw [← he]
        exact Finset.mem_insert_self _ _
      rcases Finset.mem_insert.mp this with h | h
      · exact Lit.noConfusion h
      · exact (hnotmem s2 hs2).1 (List.mem_toFinset.mp h)
    rcases ht1 with ⟨s1, hs1, rfl⟩ | ⟨s1, hs1, rfl⟩ <;>
      rcases ht2 with ⟨s2, hs2, rfl⟩ | ⟨s2, hs2, rfl⟩
    · exact hhead _ s1 s2 hs1 hs2 ((hnotmem s1 hs1).1) ((hnotmem s2 hs2).1) heq
    · simp only [literals_from_vertex, neg] at heq ⊢
      exact absurd heq (hcross s1 s2 hs1 hs2)
    · simp only [literals_from_vertex, neg] at heq ⊢
      exact absurd heq.symm (hcross s2 s1 hs2 hs1)
    · simp only [literals_from_vertex, neg] at heq ⊢
      exact hhead _ s1 s2 hs1 hs2 ((hnotmem s1 hs1).2) ((hnotmem s2 hs2).2) heq

theorem length_clauses_from_hedge (e : Finset Nat) :
    (clauses_from_hedge e).length = 2 ^ e.card := by
  rw [clauses_from_hedge, List.length_map, length_signProd, List.length_map,
    natList_length]

theorem support_of_mem_clauses_from_hedge {e : Finset Nat} {cl : Clause}
    (hcl : cl ∈ clauses_from_hedge e) : support cl = e := by
  obtain ⟨t, ht, rfl⟩ := List.mem_map.mp hcl
  have himg : Finset.image absolute_value t.toFinset =
      (t.map absolute_value).toFinset := by
    ext x
    simp [List.mem_toFinset, Finset.mem_image]
  rw [support, himg, signProd_vars ht, natList_toFinset]

theorem clauses_from_hedge_nodup (e : Finset Nat) :
    (clauses_from_hedge e).Nodup := by
  rw [clauses_from_hedge]
  apply List.Nodup.map_on
  · intro t1 ht1 t2 ht2 heq
    exact signProd_toFinset_inj (natList_nodup e) t1 ht1 t2 ht2 heq
  · apply signProd_nodup
    intro p hp
    obtain ⟨v, -, rfl⟩ := List.mem_map.mp hp
    simp [literals_from_vertex, neg]

theorem sublist_toFinset_inj {l : List Clause} (hl : l.Nodup) :
    ∀ {s t : List Clause}, s.Sublist l → t.Sublist l →
      s.toFinset = t.toFinset → s = t := by
  induction l with
  | nil =>
    intro s t hs ht _
    rw [List.sublist_nil.mp hs, List.sublist_nil.mp ht]
  | cons a l ih =>
    intro s t hs ht heq
    have hanotin : a ∉ l := (List.nodup_cons.mp hl).1
    have hl2 : l.Nodup := (List.nodup_cons.mp hl).2
    rcases List.sublist_cons_iff.mp hs with hs' | ⟨s', rfl, hs'⟩
    · rcases List.sublist_cons_iff.mp ht with ht' | ⟨t', rfl, ht'⟩
      · exact ih hl2 hs' ht' heq
      · exfalso
        have : a ∈ s.toFinset := by
          rw [heq]
          simp
        exact hanotin (hs'.subset (List.mem_toFinset.mp this))
    · rcases List.sublist_cons_iff.mp ht with ht' | ⟨t', rfl, ht'⟩
      · exfalso
        have : a ∈ t.toFinset := by
          rw [← heq]
          simp
        exact hanotin (ht'.subset (List.mem_toFinset.mp this))
      · have hsa : a ∉ s' := fun h => hanotin (hs'.subset h)
        have hta : a ∉ t' := fun h => hanotin (ht'.subset h)
        simp only [List.toFinset_cons] at heq
        have hft : s'.toFinset = t'.toFinset := by
          have h1 : s'.toFinset = (insert a s'.toFinset).erase a :=
            (Finset.erase_insert (by simpa using hsa)).symm
          rw [h1, heq, Finset.erase_insert (by simpa using hta)]
        rw [ih hl2 hs' ht' hft]

theorem sublistsLen_nodup {l : List Clause} (hl : l.Nodup) (n : Nat) :
    (l.sublistsLen n).Nodup :=
  ((List.sublistsLen_sublist_sublists' n l).nodup
    ((List.nodup_sublists'.mpr hl)))

theorem cnfs_from_hedge_ok {e : Finset Nat} {m : Int}
    (hm : 1 ≤ m ∧ m ≤ (2 : Int) ^ e.card) :
    cnfs_from_hedge e m =
      Except.ok (((clauses_from_hedge e).sublistsLen m.toNat).map List.toFinset) := by
  rw [cnfs_from_hedge, if_pos hm]

theorem hedge_cnfs_length {e : Finset Nat} (m : Int) :
    ((((clauses_from_hedge e).sublistsLen m.toNat).map List.toFinset)).length =
      Nat.choose (2 ^ e.card) m.toNat := by
  rw [List.length_map, List.length_sublistsLen, length_clauses_from_hedge]

theorem hedge_cnfs_nodup (e : Finset Nat) (m : Int) :
    ((((clauses_from_hedge e).sublistsLen m.toNat).map List.toFinset)).Nodup := by
  apply List.Nodup.map_on
  · intro t1 ht1 t2 ht2 heq
    exact sublist_toFinset_inj (clauses_from_hedge_nodup e)
      (List.mem_sublistsLen.mp ht1).1 (List.mem_sublistsLen.mp ht2).1 heq
  · exact sublistsLen_nodup (clauses_from_hedge_nodup e) _

theorem hedge_cnfs_mem {e : Finset Nat} {m : Int} {D : Cnf}
    (hD : D ∈ (((clauses_from_hedge e).sublistsLen m.toNat).map List.toFinset)) :
    D.card = m.toNat ∧ ∀ cl ∈ D, support cl = e := by
  obtain ⟨s, hs, rfl⟩ := List.mem_map.mp hD
  obtain ⟨hsub, hlen⟩ := List.mem_sublistsLen.mp hs
  constructor
  · rw [List.toFinset_card_of_nodup (hsub.nodup (clauses_from_hedge_nodup e)), hlen]
  · intro cl hcl
    exact support_of_mem_clauses_from_hedge (hsub.subset (List.mem_toFinset.mp hcl))

theorem length_tupleProd (Ls : List (List Cnf)) :
    (tupleProd Ls).length = (Ls.map List.length).prod := by
  induction Ls with
  | nil => rfl
  | cons X Ls ih =>
    simp only [tupleProd, List.length_flatMap, List.map_map, List.map_cons,
      List.prod_cons, ← ih]
    have hconst : (X.map (fun x => ((tupleProd Ls).map (x :: ·)).length)).sum =
        (X.map (fun _ => (tupleProd Ls).length)).sum := by
      congr 1
      apply List.map_congr_left
      intro x _
      rw [List.length_map]
    rw [show (List.map (List.length ∘ fun x => List.map (x :: ·) (tupleProd Ls)) X).sum
        = (X.map (fun x => ((tupleProd Ls).map (x :: ·)).length)).sum from rfl, hconst,
      List.map_const', List.sum_replicate, smul_eq_mul]

theorem nodup_flatMap_map {X : List Cnf} {Y : List Cnf} (f : Cnf → Cnf → Cnf)
    (hX : X.Nodup) (hY : Y.Nodup)
    (hinj : ∀ a1 ∈ X, ∀ b1 ∈ Y, ∀ a2 ∈ X, ∀ b2 ∈ Y,
      f a1 b1 = f a2 b2 → a1 = a2 ∧ b1 = b2) :
    (X.flatMap (fun a => Y.map (f a))).Nodup := by
  induction X with
  | nil => exact List.nodup_nil
  | cons a X ih =>
    rw [List.flatMap_cons]
    apply List.Nodup.append
    · apply (hY).map_on
      intro b1 hb1 b2 hb2 heq
      exact (hinj a (List.mem_cons_self _ _) b1 hb1 a (List.mem_cons_self _ _)
        b2 hb2 heq).2
    · apply ih (List.nodup_cons.mp hX).2
      intro a1 ha1 b1 hb1 a2 ha2 b2 hb2 heq
      exact hinj a1 (List.mem_cons_of_mem _ ha1) b1 hb1 a2
        (List.mem_cons_of_mem _ ha2) b2 hb2 heq
    · intro c hc1 hc2
      obtain ⟨b1, hb1, rfl⟩ := List.mem_map.mp hc1
      obtain ⟨a2, ha2, hc2'⟩ := List.mem_flatMap.mp hc2
      obtain ⟨b2, hb2, heq⟩ := List.mem_map.mp hc2'
      have := (hinj a (List.mem_cons_self _ _) b1 hb1 a2
        (List.mem_cons_of_mem _ ha2) b2 hb2 heq.symm).1
      exact (List.nodup_cons.mp hX).1 (this ▸ ha2)

theorem mapM_hedges_ok (L : List (Finset Nat × Int))
    (hm : ∀ p ∈ L, 1 ≤ p.2 ∧ p.2 ≤ (2 : Int) ^ p.1.card) :
    L.mapM (fun p => cnfs_from_hedge p.1 p.2) = Except.ok (L.map hedgeCnfList) := by
  induction L with
  | nil => rfl
  | cons p L ih =>
    rw [List.mapM_cons, cnfs_from_hedge_ok (hm p (List.mem_cons_self _ _)),
      ih (fun q hq => hm q (List.mem_cons_of_mem _ hq))]
    rfl

theorem tupleProd_cons_unionAll (X : List Cnf) (Ls : List (List Cnf)) :
    (tupleProd (X :: Ls)).map unionAll =
      X.flatMap (fun D0 => ((tupleProd Ls).map unionAll).map (D0 ∪ ·)) := by
  simp only [tupleProd, List.map_flatMap, List.map_map]
  rfl

theorem filter_union_support_left {D0 X : Cnf} {e : Finset Nat}
    (hD0 : ∀ cl ∈ D0, support cl = e) (hX : ∀ cl ∈ X, support cl ≠ e) :
    (D0 ∪ X).filter (fun cl => support cl = e) = D0 := by
  rw [Finset.filter_union, Finset.filter_true_of_mem hD0,
    Finset.filter_false_of_mem hX, Finset.union_empty]

theorem filter_union_support_right {D0 X : Cnf} {e : Finset Nat}
    (hD0 : ∀ cl ∈ D0, support cl = e) (hX : ∀ cl ∈ X, support cl ≠ e) :
    (D0 ∪ X).filter (fun cl => ¬ support cl = e) = X := by
  rw [Finset.filter_union,
    Finset.filter_false_of_mem (fun cl h => not_not_intro (hD0 cl h)),
    Finset.filter_true_of_mem (fun cl h => hX cl h), Finset.empty_union]

theorem mhgraph_cnfs_struct (L : List (Finset Nat × Int))
    (hkeys : (L.map Prod.fst).Nodup)
    (hm : ∀ p ∈ L, 1 ≤ p.2 ∧ p.2 ≤ (2 : Int) ^ p.1.card) :
    ((tupleProd (L.map hedgeCnfList)).map unionAll).Nodup ∧
    ∀ D ∈ (tupleProd (L.map hedgeCnfList)).map unionAll,
      (∀ cl ∈ D, support cl ∈ L.map Prod.fst) ∧
      (∀ p ∈ L, supportCount D p.1 = p.2.toNat) := by
  induction L with
  | nil =>
    constructor
    · exact List.nodup_singleton _
    · intro D hD
      have hDe : D = (∅ : Cnf) := by
        simpa [tupleProd, unionAll] using hD
      subst hDe
      exact ⟨fun cl hcl => absurd hcl (Finset.not_mem_empty cl),
        fun p hp => absurd hp (List.not_mem_nil p)⟩
  | cons p L ih =>
    rw [List.map_cons] at hkeys
    have hpk : p.1 ∉ L.map Prod.fst := (List.nodup_cons.mp hkeys).1
    have hkeys2 : (L.map Prod.fst).Nodup := (List.nodup_cons.mp hkeys).2
    have hp := hm p (List.mem_cons_self _ _)
    obtain ⟨ihnodup, ihmem⟩ := ih hkeys2 (fun q hq => hm q (List.mem_cons_of_mem _ hq))
    have hhead : ∀ D0 ∈ hedgeCnfList p,
        D0.card = p.2.toNat ∧ ∀ cl ∈ D0, support cl = p.1 := by
      intro D0 hD0
      exact hedge_cnfs_mem hD0
    have htailne : ∀ X ∈ (tupleProd (L.map hedgeCnfList)).map unionAll,
        ∀ cl ∈ X, support cl ≠ p.1 := by
      intro X hX cl hcl h
      exact hpk (h ▸ (ihmem X hX).1 cl hcl)
    rw [List.map_cons, tupleProd_cons_unionAll]
    have hsplit : ∀ a1 ∈ hedgeCnfList p,
        ∀ b1 ∈ (tupleProd (L.map hedgeCnfList)).map unionAll,
        ∀ a2 ∈ hedgeCnfList p,
        ∀ b2 ∈ (tupleProd (L.map hedgeCnfList)).map unionAll,
          a1 ∪ b1 = a2 ∪ b2 → a1 = a2 ∧ b1 = b2 := by
      intro a1 ha1 b1 hb1 a2 ha2 b2 hb2 heq
      have h1 : a1 = a2 := by
        rw [← filter_union_support_left (hhead a1 ha1).2 (htailne b1 hb1), heq,
          filter_union_support_left (hhead a2 ha2).2 (htailne b2 hb2)]
      have h2 : b1 = b2 := by
        rw [← filter_union_support_right (hhead a1 ha1).2 (htailne b1 hb1), heq,
          filter_union_support_right (hhead a2 ha2).2 (htailne b2 hb2)]
      exact ⟨h1, h2⟩
    constructor
    · exact nodup_flatMap_map (fun D0 X => D0 ∪ X)
        (hedge_cnfs_nodup p.1 p.2) ihnodup hsplit
    · intro D hD
      obtain ⟨D0, hD0, hD'⟩ := List.mem_flatMap.mp hD
      obtain ⟨X, hX, rfl⟩ := List.mem_map.mp hD'
      constructor
      · intro cl hcl
        rcases Finset.mem_union.mp hcl with h | h
        · rw [List.map_cons, (hhead D0 hD0).2 cl h]
          exact List.mem_cons_self _ _
        · rw [List.map_cons]
          exact List.mem_cons_of_mem _ ((ihmem X hX).1 cl h)
      · intro q hq
        rcases List.mem_cons.mp hq with rfl | hq2
        · rw [supportCount,
            filter_union_support_left (hhead D0 hD0).2 (htailne X hX)]
          exact (hhead D0 hD0).1
        · have hqne : ∀ cl ∈ D0, ¬ support cl = q.1 := by
            intro cl hcl h
            apply hpk
            rw [← ((hhead D0 hD0).2 cl hcl), h]
            exact List.mem_map_of_mem Prod.fst hq2
          rw [supportCount, Finset.filter_union,
            Finset.filter_false_of_mem hqne, Finset.empty_union]
          exact (ihmem X hX).2 q hq2

/-- C2: over the item list of an MHGraph whose multiplicities all lie in
`[1, 2 ^ arity]`, `cnfs_from_mhgraph` succeeds and yields exactly the product
over all HEdges of `C(2 ^ arity, multiplicity)` pairwise-distinct CNFs, and
every yielded CNF is supported exactly on the MHGraph: each of its clauses'
variable-supports is an HEdge, and for each HEdge the number of clauses
supported on it equals its multiplicity. -/
theorem claim_C2_cnfs_from_mhgraph (L : List (Finset Nat × Int)) (hne : L ≠ [])
    (hkeys : (L.map Prod.fst).Nodup)
    (hm : ∀ p ∈ L, 1 ≤ p.2 ∧ p.2 ≤ (2 : Int) ^ p.1.card) :
    ∃ cs : List Cnf, cnfs_from_mhgraph L = Except.ok cs ∧
      cs.length = (L.map (fun p => Nat.choose (2 ^ p.1.card) p.2.toNat)).prod ∧
      cs.Nodup ∧
      ∀ D ∈ cs,
        (∀ cl ∈ D, support cl ∈ L.map Prod.fst) ∧
        (∀ p ∈ L, supportCount D p.1 = p.2.toNat) := by
  refine ⟨(tupleProd (L.map hedgeCnfList)).map unionAll, ?_, ?_,
    (mhgraph_cnfs_struct L hkeys hm).1, (mhgraph_cnfs_struct L hkeys hm).2⟩
  · rw [cnfs_from_mhgraph, mapM_hedges_ok L hm]
    rfl
  · rw [List.length_map, length_tupleProd, List.map_map]
    congr 1
    apply List.map_congr_left
    intro q hq
    exact hedge_cnfs_length q.2

/-- Witness for C2 at the single-HEdge MHGraph `{1, 2} ↦ 2`. -/
theorem claim_C2_cnfs_from_mhgraph_witness :
    (([(({1, 2} : Finset Nat), (2 : Int))] : List (Finset Nat × Int)) ≠ [] ∧
      (([(({1, 2} : Finset Nat), (2 : Int))].map Prod.fst)).Nodup ∧
      (∀ p ∈ ([(({1, 2} : Finset Nat), (2 : Int))] : List (Finset Nat × Int)),
        1 ≤ p.2 ∧ p.2 ≤ (2 : Int) ^ p.1.card)) ∧
    (∃ cs : List Cnf,
      cnfs_from_mhgraph [(({1, 2} : Finset Nat), (2 : Int))] = Except.ok cs ∧
      cs.length = (([(({1, 2} : Finset Nat), (2 : Int))] : List (Finset Nat × Int)).map
        (fun p => Nat.choose (2 ^ p.1.card) p.2.toNat)).prod ∧
      cs.Nodup ∧
      ∀ D ∈ cs,
        (∀ cl ∈ D, support cl ∈
          ([(({1, 2} : Finset Nat), (2 : Int))] : List (Finset Nat × Int)).map Prod.fst) ∧
        (∀ p ∈ ([(({1, 2} : Finset Nat), (2 : Int))] : List (Finset Nat × Int)),
          supportCount D p.1 = p.2.toNat)) :=
  ⟨⟨by decide, by decide, by decide⟩,
    claim_C2_cnfs_from_mhgraph _ (by decide) (by decide) (by decide)⟩

/-- Witness for C3 at the concrete example CNF. -/
theorem claim_C3_mhgraph_from_cnf_spec_witness :
    Representable (cnf [[1, -2], [2, 3, 4], [1, 2]]) ∧
    (∃ M, mhgraph_from_cnf (cnf [[1, -2], [2, 3, 4], [1, 2]]) = Except.ok M ∧
      M.count ({1, 2} : Finset Nat) = 2 ∧ M.count ({2, 3, 4} : Finset Nat) = 1) :=
  ⟨by decide,
    (claim_C3_mhgraph_from_cnf_spec (cnf [[1, -2], [2, 3, 4], [1, 2]])
      (by decide)).2.2⟩
